import Mathlib

/-!
Verification of the MSA extraction and risk-assessment pipeline.

This file gives a shallow embedding of the algorithmic core of the system:

* `mergeFields` / `mergeVal` embed `MSAParser._deep_merge` (src/msa_parser.py),
  with Python dictionaries as ordered association lists and a Python-style
  dynamic value universe `PyVal`.  Exceptions (the `AttributeError` raised by
  `result[key].strip()` when `result[key]` is a truthy non-string) are modelled
  by `Option`.
* `chunkDocument` embeds `MSAParser._chunk_document` and
  `chunkTextBySections` embeds `app.chunk_text_by_sections`, including the
  regular-expression boundary search, with text as `List Char`.  The two
  `while` loops are written with an explicit fuel argument equal to
  `length + 1`, which is shown sufficient whenever `max_chunk_size ≥ 1`;
  Python float comparisons such as `pos > max * 0.6` are modelled by the
  exact rational comparison `10 * pos > 6 * max`.
* `extractKeywords` / `scoreByKeywords` embed `KeywordScorer`
  (src/evaluator.py) and `evaluateDocumentMatching` embeds the greedy
  matching loop of `Evaluator.evaluate_document`.
* `assessClause`, `extractClauses`, `calculateStructureCompleteness` and
  `assessMsa` embed `RiskAssessor` (src/risk_assessor.py).  The external LLM
  collaborator is modelled by an injected `Outcome` per clause: `failure`
  covers every exception path of the `try` block (no JSON in the response,
  JSON decode error, float conversion error, model validation error) and
  `parsed` carries the successfully parsed and coerced fields.

Numbers are modelled by `Int`/`ℚ` (exact arithmetic); the concrete values
appearing in the theorems below stay far from the decision thresholds, where
IEEE doubles and rationals agree.
-/

/-! ## Python string primitives -/

/-- Whitespace characters recognised by Python `str.strip` and by the regex
class `\s` (ASCII fragment). -/
def isPySpace (c : Char) : Bool :=
  c = ' ' || c = '\t' || c = '\n' || c = '\x0d' || c = '\x0b' || c = '\x0c'

/-- `str.strip()` on a character list. -/
def pyStrip (l : List Char) : List Char :=
  ((l.dropWhile isPySpace).reverse.dropWhile isPySpace).reverse

/-- `str.strip()` on a `String`. -/
def pyStripS (s : String) : String :=
  String.mk (pyStrip s.toList)

theorem dropWhile_len_le {α : Type} (p : α → Bool) :
    ∀ l : List α, (l.dropWhile p).length ≤ l.length
  | [] => by simp
  | a :: l => by
    by_cases h : p a
    · simp only [List.dropWhile_cons, h, if_true]
      exact le_trans (dropWhile_len_le p l) (Nat.le_succ _)
    · simp [List.dropWhile_cons, h]

theorem pyStrip_length_le (l : List Char) : (pyStrip l).length ≤ l.length := by
  have h1 : (l.dropWhile isPySpace).length ≤ l.length := dropWhile_len_le isPySpace l
  have h2 : ((l.dropWhile isPySpace).reverse.dropWhile isPySpace).length ≤
      (l.dropWhile isPySpace).reverse.length :=
    dropWhile_len_le isPySpace _
  simpa [pyStrip] using le_trans (by simpa using h2) (by simpa using h1)

/-- ASCII lower-case letter, the regex class `[a-z]`. -/
def isLowerAZ (c : Char) : Bool := 'a' ≤ c && c ≤ 'z'

/-- ASCII upper-case letter, the regex class `[A-Z]`. -/
def isUpperAZ (c : Char) : Bool := 'A' ≤ c && c ≤ 'Z'

/-- ASCII digit, the regex class `\d`. -/
def isDigitAZ (c : Char) : Bool := '0' ≤ c && c ≤ '9'

/-- Regex word character `\w` = `[a-zA-Z0-9_]` (ASCII fragment), used for the
word-boundary assertion `\b`. -/
def isWordChar (c : Char) : Bool :=
  isLowerAZ c || isUpperAZ c || isDigitAZ c || c = '_'

/-- Python `str.title()` (ASCII fragment): a letter that follows a letter is
lower-cased, a letter that follows a non-letter is upper-cased. -/
def pyTitleAux : List Char → Bool → List Char
  | [], _ => []
  | c :: cs, prevAlpha =>
    (if isLowerAZ c || isUpperAZ c then
        (if prevAlpha then c.toLower else c.toUpper)
      else c) :: pyTitleAux cs (isLowerAZ c || isUpperAZ c)

/-- Python `str.title()` on a `String`. -/
def pyTitle (s : String) : String := String.mk (pyTitleAux s.toList false)

/-! ## The Python value universe

`PyVal` models the JSON-like values the pipeline manipulates: `None`,
booleans, numbers (modelled exactly by `Int`), strings, lists and dicts
(ordered association lists, as in Python 3.7+). -/

inductive PyVal where
  | none
  | bool (b : Bool)
  | int (n : Int)
  | str (s : String)
  | list (xs : List PyVal)
  | dict (fs : List (String × PyVal))

/-- First-occurrence lookup, Python `d[k]` / `k in d`. -/
def lookupF (k : String) : List (String × PyVal) → Option PyVal
  | [] => Option.none
  | (k2, v) :: fs => if k2 = k then some v else lookupF k fs

/-- Python `d[k] = v` for a key already present: replace the (unique) entry,
keeping its position. -/
def setF (k : String) (v : PyVal) : List (String × PyVal) → List (String × PyVal)
  | [] => []
  | (k2, w) :: fs => if k2 = k then (k, v) :: fs else (k2, w) :: setF k v fs

/-- Python truthiness: `bool(v)`. -/
def pyTruthy : PyVal → Bool
  | .none => false
  | .bool b => b
  | .int n => n ≠ 0
  | .str s => s ≠ ""
  | .list xs => !xs.isEmpty
  | .dict fs => !fs.isEmpty

mutual

/-- Python `==` on `PyVal`: structural equality except that booleans compare
equal to the corresponding integers (`True == 1`, `False == 0`), lists compare
pointwise, and dicts compare as key-value sets. -/
def pyEq : PyVal → PyVal → Bool
  | .none, .none => true
  | .bool a, .bool b => a = b
  | .bool a, .int n => (if a then (1 : Int) else 0) = n
  | .int n, .bool a => n = (if a then (1 : Int) else 0)
  | .int a, .int b => a = b
  | .str a, .str b => a = b
  | .list xs, .list ys => pyEqL xs ys
  | .dict fs, .dict gs => fs.length = gs.length && pyEqSub fs gs && pyEqSub gs fs
  | _, _ => false
termination_by a b => sizeOf a + sizeOf b
decreasing_by all_goals (simp_wf; try omega)

/-- Pointwise Python `==` on lists. -/
def pyEqL : List PyVal → List PyVal → Bool
  | [], [] => true
  | x :: xs, y :: ys => pyEq x y && pyEqL xs ys
  | _, _ => false
termination_by xs ys => sizeOf xs + sizeOf ys
decreasing_by all_goals (simp_wf; try omega)

/-- Every entry of the first dict appears (up to Python `==`) in the second. -/
def pyEqSub : List (String × PyVal) → List (String × PyVal) → Bool
  | [], _ => true
  | (k, v) :: fs, gs => pyMemKV k v gs && pyEqSub fs gs
termination_by fs gs => sizeOf fs + sizeOf gs
decreasing_by all_goals (simp_wf; try omega)

/-- Key-value membership up to Python `==`. -/
def pyMemKV (k : String) (v : PyVal) : List (String × PyVal) → Bool
  | [] => false
  | (k2, w) :: gs => (k = k2 && pyEq v w) || pyMemKV k v gs
termination_by gs => sizeOf v + sizeOf gs
decreasing_by all_goals (simp_wf; try omega)

end

/-- Python `x in xs` for a list. -/
def pyIn (x : PyVal) (xs : List PyVal) : Bool := xs.any (fun y => pyEq x y)

/-! ## `MSAParser._deep_merge` (src/msa_parser.py lines 1210-1238)

The branch chain is translated in source order.  The last branch evaluates
`result[key].strip()` whenever `value` is a string with non-blank content and
`result[key]` is truthy; if that truthy value is not a string, Python raises
`AttributeError`, modelled here by `Option.none`. -/

mutual

/-- Merge the value `v` from `update` into the existing value `bv` of
`result[key]`, following the `elif` chain of `_deep_merge`.  Returns the new
value for the key (possibly `bv` itself, for the fall-through cases), or
`Option.none` if Python would raise. -/
def mergeVal : PyVal → PyVal → Option PyVal
  | .none, .none => some .none
  | .none, v => some v
  | bv, .none => some bv
  | .dict bfs, .dict vfs => (mergeFields bfs vfs).map PyVal.dict
  | .list bxs, .list vxs =>
    some (.list (bxs ++ vxs.filter (fun x => !(pyIn x bxs))))
  | bv, v =>
    -- value is not None and (result[key] is None or result[key] == "")
    if pyEq bv (.str "") then some v
    else
      match v with
      | .str s =>
        -- isinstance(value, str) and value.strip() and
        --   (not result[key] or not result[key].strip())
        if pyStripS s ≠ "" then
          if !(pyTruthy bv) then some (.str s)
          else
            match bv with
            | .str bs => if pyStripS bs = "" then some (.str s) else some bv
            | _ => Option.none          -- AttributeError: no .strip()
        else some bv
      | _ => some bv
termination_by bv v => sizeOf v
decreasing_by all_goals (simp_wf; try omega)

/-- One iteration of the `for key, value in update.items()` loop. -/
def mergeKey (res : List (String × PyVal)) (k : String) (v : PyVal) :
    Option (List (String × PyVal)) :=
  match lookupF k res with
  | Option.none => some (res ++ [(k, v)])   -- new key, added even if null
  | some bv => (mergeVal bv v).map (fun m => setF k m res)
termination_by sizeOf v + 1
decreasing_by all_goals (simp_wf; try omega)

/-- The `for` loop of `_deep_merge`, starting from `res = base.copy()`. -/
def mergeFields (res : List (String × PyVal)) :
    List (String × PyVal) → Option (List (String × PyVal))
  | [] => some res
  | (k, v) :: rest =>
    match mergeKey res k v with
    | some r2 => mergeFields r2 rest
    | Option.none => Option.none
termination_by upd => sizeOf upd
decreasing_by all_goals (simp_wf; try omega)

end

/-- `_deep_merge` itself: both arguments are dicts. -/
def deepMerge (base update : List (String × PyVal)) :
    Option (List (String × PyVal)) :=
  mergeFields base update

/-! ## Predicates on `PyVal` trees used by the merge theorems -/


mutual

/-- Type compatibility of two records: wherever both sides are non-null at the
same path, they have the same scalar type or the same container shape
(bool/bool, int/int, string/string, list/list or dict/dict, dicts
recursively on common keys). -/
def compat : PyVal → PyVal → Bool
  | .none, _ => true
  | _, .none => true
  | .bool _, .bool _ => true
  | .int _, .int _ => true
  | .str _, .str _ => true
  | .list _, .list _ => true
  | .dict fs, .dict gs => compatF fs gs
  | _, _ => false
termination_by a b => sizeOf a + sizeOf b
decreasing_by all_goals (simp_wf; try omega)

/-- `compat` on every key of the first field list against the second. -/
def compatF : List (String × PyVal) → List (String × PyVal) → Bool
  | [], _ => true
  | (k, v) :: fs, gs => compatF1 k v gs && compatF fs gs
termination_by fs gs => sizeOf fs + sizeOf gs
decreasing_by all_goals (simp_wf; try omega)

/-- `compat v w` for every entry `(k, w)` of the list whose key equals `k`. -/
def compatF1 (k : String) (v : PyVal) : List (String × PyVal) → Bool
  | [] => true
  | (k2, w) :: gs => (if k = k2 then compat v w else true) && compatF1 k v gs
termination_by gs => sizeOf v + sizeOf gs
decreasing_by all_goals (simp_wf; try omega)

end

mutual

/-- Every dict in the tree has pairwise distinct keys (always true of real
Python dictionaries; an invariant of the association-list representation). -/
def recND : PyVal → Bool
  | .dict fs => recNDF fs
  | .list xs => recNDL xs
  | _ => true
termination_by v => sizeOf v
decreasing_by all_goals (simp_wf; try omega)

/-- `recND` plus key distinctness for a field list. -/
def recNDF : List (String × PyVal) → Bool
  | [] => true
  | (k, v) :: fs => !(fs.any (fun kv => kv.1 = k)) && recND v && recNDF fs
termination_by fs => sizeOf fs
decreasing_by all_goals (simp_wf; try omega)

/-- `recND` for every element of a list. -/
def recNDL : List PyVal → Bool
  | [] => true
  | x :: xs => recND x && recNDL xs
termination_by xs => sizeOf xs
decreasing_by all_goals (simp_wf; try omega)

end

mutual

/-- No `None` anywhere in the tree (the "no null fields" hypothesis of the
idempotence property). -/
def noNull : PyVal → Bool
  | .none => false
  | .bool _ => true
  | .int _ => true
  | .str _ => true
  | .list xs => noNullL xs
  | .dict fs => noNullF fs
termination_by v => sizeOf v
decreasing_by all_goals (simp_wf; try omega)

/-- `noNull` for every element of a list. -/
def noNullL : List PyVal → Bool
  | [] => true
  | x :: xs => noNull x && noNullL xs
termination_by xs => sizeOf xs
decreasing_by all_goals (simp_wf; try omega)

/-- `noNull` for every value of a field list. -/
def noNullF : List (String × PyVal) → Bool
  | [] => true
  | (_, v) :: fs => noNull v && noNullF fs
termination_by fs => sizeOf fs
decreasing_by all_goals (simp_wf; try omega)

end

/-- A genuine value in the sense of the merge invariant: non-null and
non-empty (strings count as empty when blank, matching the code, which treats
whitespace-only strings like empty ones). -/
def genuineVal : PyVal → Bool
  | .none => false
  | .bool _ => true
  | .int _ => true
  | .str s => pyStripS s ≠ ""
  | .list xs => !xs.isEmpty
  | .dict fs => !fs.isEmpty

/-- Follow a path of dict keys down a value. -/
def lookupPath : PyVal → List String → Option PyVal
  | v, [] => some v
  | .dict fs, k :: ks =>
    match lookupF k fs with
    | some w => lookupPath w ks
    | Option.none => Option.none
  | _, _ :: _ => Option.none

/-- The field at `p` exists and holds a genuine value. -/
def genuineAt (v : PyVal) (p : List String) : Bool :=
  match lookupPath v p with
  | some w => genuineVal w
  | Option.none => false

/-! ## The text chunker

`MSAParser._chunk_document` (src/msa_parser.py lines 1110-1188) and
`app.chunk_text_by_sections` (src/app.py lines 162-238) share the same
algorithm; the only difference is that the parser version also recognises
all-caps headings.  Text is a `List Char`; `re.finditer` is modelled by a
scan that finds the leftmost match at or after the current position and
resumes after its (greedy) end, exactly as the Python regex engine does for
these backtracking-free patterns. -/

/-- Greedy match of `\s*\d+` starting at the given suffix: maximal run of
whitespace, then at least one digit (maximal).  Returns the consumed length.
`\s` and `\d` are disjoint, so maximal munch is exact here. -/
def matchSpacesDigits (l : List Char) : Option Nat :=
  let ws := l.takeWhile isPySpace
  let r1 := l.dropWhile isPySpace
  let ds := r1.takeWhile isDigitAZ
  if ds.isEmpty then Option.none else some (ws.length + ds.length)

/-- Match `\n\s*\d+\.\d+` at the head of the suffix; returns the match
length. -/
def matchNumDotNum : List Char → Option Nat
  | '\n' :: rest =>
    let ws := rest.takeWhile isPySpace
    let r1 := rest.dropWhile isPySpace
    let ds := r1.takeWhile isDigitAZ
    if ds.isEmpty then Option.none
    else
      match r1.drop ds.length with
      | '.' :: r2 =>
        let ds2 := r2.takeWhile isDigitAZ
        if ds2.isEmpty then Option.none
        else some (1 + ws.length + ds.length + 1 + ds2.length)
      | _ => Option.none
  | _ => Option.none

/-- Match `\n\s*\d+\([a-z]\)` at the head of the suffix. -/
def matchNumParen : List Char → Option Nat
  | '\n' :: rest =>
    let ws := rest.takeWhile isPySpace
    let r1 := rest.dropWhile isPySpace
    let ds := r1.takeWhile isDigitAZ
    if ds.isEmpty then Option.none
    else
      match r1.drop ds.length with
      | '(' :: c :: ')' :: _ =>
        if isLowerAZ c then some (1 + ws.length + ds.length + 3) else Option.none
      | _ => Option.none
  | _ => Option.none

/-- Match `\n\s*KEYWORD\s+\d+` at the head of the suffix, for the literal
keywords `SECTION`, `Article` and `Clause`. -/
def matchKeywordNum (kw : List Char) : List Char → Option Nat
  | '\n' :: rest =>
    let ws := rest.takeWhile isPySpace
    let r1 := rest.dropWhile isPySpace
    if kw.isPrefixOf r1 then
      let r2 := r1.drop kw.length
      let ws2 := r2.takeWhile isPySpace
      if ws2.isEmpty then Option.none
      else
        let r3 := r2.dropWhile isPySpace
        let ds := r3.takeWhile isDigitAZ
        if ds.isEmpty then Option.none
        else some (1 + ws.length + kw.length + ws2.length + ds.length)
    else Option.none
  | _ => Option.none

/-- Largest `k` with `1 ≤ k < stop` such that the character at index `k` of
the run region is a newline (the backtracking point of `[A-Z\s]+` before the
final literal `\n`). -/
def lastNewlineBefore (l : List Char) (stop : Nat) : Option Nat :=
  ((List.range stop).filter (fun k => 1 ≤ k && l.get? k = some '\n')).getLast?

/-- Match `\n\s*[A-Z][A-Z\s]+\n` at the head of the suffix (all-caps heading,
used only by `_chunk_document`).  `[A-Z\s]+` is greedy and must leave a final
`\n`; since `\n` itself belongs to the class, the regex backtracks to the last
newline strictly inside the maximal run. -/
def matchCapsHeading : List Char → Option Nat
  | '\n' :: rest =>
    let ws := rest.takeWhile isPySpace
    let r1 := rest.dropWhile isPySpace
    match r1 with
    | c :: r2 =>
      if isUpperAZ c then
        let run := r2.takeWhile (fun d => isUpperAZ d || isPySpace d)
        -- positions 0..run.length-1 are the candidates for the end of `+`;
        -- the character at the backtrack point must be '\n'
        match lastNewlineBefore r2 (run.length + 1) with
        | some k => some (1 + ws.length + 1 + k + 1)
        | Option.none => Option.none
      else Option.none
    | [] => Option.none
  | _ => Option.none

/-- The section patterns of `_chunk_document`, in source order. -/
inductive SecPat where
  | numDotNum | numParen | sectionNum | articleNum | clauseNum | capsHeading

/-- Dispatch a pattern matcher on a suffix. -/
def matchPat : SecPat → List Char → Option Nat
  | .numDotNum, l => matchNumDotNum l
  | .numParen, l => matchNumParen l
  | .sectionNum, l => matchKeywordNum "SECTION".toList l
  | .articleNum, l => matchKeywordNum "Article".toList l
  | .clauseNum, l => matchKeywordNum "Clause".toList l
  | .capsHeading, l => matchCapsHeading l

/-- `re.finditer`: starting positions of non-overlapping matches, scanning
left to right and resuming after each match end. -/
def finditerAux (pat : SecPat) (text : List Char) (n : Nat) (i : Nat) : List Nat :=
  if h : i < n then
    match matchPat pat (text.drop i) with
    | some len => i :: finditerAux pat text n (max (i + len) (i + 1))
    | Option.none => finditerAux pat text n (i + 1)
  else []
termination_by n - i
decreasing_by all_goals (simp_wf; omega)

/-- All match start positions of a pattern in the text. -/
def finditer (pat : SecPat) (text : List Char) : List Nat :=
  finditerAux pat text text.length 0

/-- Ascending insertion into a sorted list (used to model `sorted`). -/
def insertSorted (x : Nat) : List Nat → List Nat
  | [] => [x]
  | y :: ys => if x ≤ y then x :: y :: ys else y :: insertSorted x ys

/-- Insertion sort for `sorted(...)`. -/
def sortNat (l : List Nat) : List Nat := l.foldr insertSorted []

/-- Remove adjacent duplicates of a sorted list, yielding `sorted(set(...))`. -/
def dedupSorted : List Nat → List Nat
  | [] => []
  | [x] => [x]
  | x :: y :: rest =>
    if x = y then dedupSorted (y :: rest) else x :: dedupSorted (y :: rest)

/-- The split-point computation of `_chunk_document`: seed `[0]`, then for
each pattern append match positions further than `max_chunk_size // 3` past
the last accepted point, append `len(text)`, sort and deduplicate. -/
def splitPoints (pats : List SecPat) (text : List Char) (maxChunkSize : Nat) :
    List Nat :=
  let sp :=
    pats.foldl
      (fun sp pat =>
        (finditer pat text).foldl
          (fun sp pos =>
            if sp.getLastD 0 + maxChunkSize / 3 < pos then sp ++ [pos] else sp)
          sp)
      [0]
  dedupSorted (sortNat (sp ++ [text.length]))

/-- Python `s.rfind(sub, start, end)`: the largest index `i ≥ start` such
that `sub` occurs at `i` entirely within `[start, end)`, if any. -/
def pyRfind (sub : List Char) (s : List Char) (start stop : Nat) : Option Nat :=
  ((List.range stop).filter
    (fun i => start ≤ i && i + sub.length ≤ stop && sub.isPrefixOf (s.drop i))).getLast?

/-- The split-position computation inside the oversized-span `while` loop:
prefer a paragraph break in the last 40% of the window (guard
`para_boundary > max * 0.6`), else a line break in the last 30% (guard
`line_break > max * 0.7`), else a hard cut at `max_chunk_size`.  The float
comparisons `i > 0.6 * max` and `i > 0.7 * max` are modelled exactly as
`10 * i > 6 * max` and `10 * i > 7 * max`, and `int(max * 0.4)` /
`int(max * 0.3)` as `4 * max / 10` / `3 * max / 10` (floor); IEEE rounding
can differ from the exact value only when the product is within one ulp of
an integer, which none of the theorems below depends on. -/
def computeSplitAt (maxChunkSize : Nat) (chunk : List Char) : Nat :=
  let lineFallback :=
    match pyRfind ['\n'] chunk (maxChunkSize - 3 * maxChunkSize / 10) maxChunkSize with
    | some j => if 7 * maxChunkSize < 10 * j then j + 1 else maxChunkSize
    | Option.none => maxChunkSize
  match pyRfind ['\n', '\n'] chunk (maxChunkSize - 4 * maxChunkSize / 10) maxChunkSize with
  | some i => if 6 * maxChunkSize < 10 * i then i + 2 else lineFallback
  | Option.none => lineFallback

/-- The `while len(chunk) > max_chunk_size` loop over one span, followed by
the trailing `if chunk: chunks.append(chunk.strip())`.  The fuel argument is
instantiated with `length + 1`, which suffices whenever `max_chunk_size ≥ 1`
(each iteration strictly shortens the remainder); for `max_chunk_size = 0`
the Python loop may not terminate at all, and the fuel-exhaustion branch is
then an artefact of the model. -/
def spanSplitLoop (maxChunkSize : Nat) : Nat → List Char → List (List Char)
  | 0, chunk => [chunk]
  | fuel + 1, chunk =>
    if maxChunkSize < chunk.length then
      let sa := computeSplitAt maxChunkSize chunk
      pyStrip (chunk.take sa) :: spanSplitLoop maxChunkSize fuel (pyStrip (chunk.drop sa))
    else if chunk.isEmpty then [] else [pyStrip chunk]

/-- The final safety pass: force-split one residual oversized chunk at
fixed-width boundaries (`while len(chunk) > max_chunk_size` with hard cuts),
then the trailing `if chunk` append. -/
def forceSplitLoop (maxChunkSize : Nat) : Nat → List Char → List (List Char)
  | 0, chunk => [chunk]
  | fuel + 1, chunk =>
    if maxChunkSize < chunk.length then
      pyStrip (chunk.take maxChunkSize) ::
        forceSplitLoop maxChunkSize fuel (pyStrip (chunk.drop maxChunkSize))
    else if chunk.isEmpty then [] else [pyStrip chunk]

/-- The shared chunking algorithm, parameterised by the pattern list. -/
def chunkCore (pats : List SecPat) (text : List Char) (maxChunkSize : Nat) :
    List (List Char) :=
  if text.length ≤ maxChunkSize then [text]
  else
    let sps := splitPoints pats text maxChunkSize
    let chunks :=
      (sps.zip sps.tail).flatMap
        (fun se =>
          let spanChunk := (text.drop se.1).take (se.2 - se.1)
          spanSplitLoop maxChunkSize (spanChunk.length + 1) spanChunk)
    let finalChunks :=
      chunks.flatMap
        (fun c =>
          if maxChunkSize < c.length then forceSplitLoop maxChunkSize (c.length + 1) c
          else [c])
    finalChunks.filter (fun c => !c.isEmpty)

/-- `MSAParser._chunk_document`: six section patterns, including all-caps
headings. -/
def chunkDocument (text : List Char) (maxChunkSize : Nat) : List (List Char) :=
  chunkCore
    [SecPat.numDotNum, SecPat.numParen, SecPat.sectionNum, SecPat.articleNum,
      SecPat.clauseNum, SecPat.capsHeading]
    text maxChunkSize

/-- `app.chunk_text_by_sections`: same algorithm without the all-caps
pattern. -/
def chunkTextBySections (text : List Char) (maxChunkSize : Nat) : List (List Char) :=
  chunkCore
    [SecPat.numDotNum, SecPat.numParen, SecPat.sectionNum, SecPat.articleNum,
      SecPat.clauseNum]
    text maxChunkSize

/-! ## `KeywordScorer` (src/evaluator.py lines 100-153) -/

/-- The stopword set of `KeywordScorer.extract_keywords`, verbatim. -/
def stopwords : List String :=
  ["the", "a", "an", "and", "or", "but", "in", "on", "at", "to", "for",
   "of", "with", "by", "from", "as", "is", "was", "are", "were", "be",
   "been", "being", "have", "has", "had", "do", "does", "did", "will",
   "would", "should", "could", "may", "might", "must", "can", "this",
   "that", "these", "those", "it", "its", "they", "them", "their",
   "there", "then", "than", "when", "where", "what", "which", "who",
   "whom", "whose", "why", "how", "all", "each", "every", "some", "any",
   "no", "not", "only", "just", "also", "more", "most", "other", "such",
   "same", "very", "much", "many", "few", "little", "own", "shall"]

/-- `re.findall(r'\b[a-z]+\b', text_lower)`: maximal runs of `[a-z]` whose
neighbouring characters (if any) are not word characters.  The `prev`
argument carries the character immediately before the current suffix. -/
def pyWordsAux : List Char → Option Char → List (List Char)
  | [], _ => []
  | c :: cs, prev =>
    if isLowerAZ c then
      let run := c :: cs.takeWhile isLowerAZ
      let rest := cs.dropWhile isLowerAZ
      let okL := match prev with
        | some p => !isWordChar p
        | Option.none => true
      let okR := match rest with
        | [] => true
        | d :: _ => !isWordChar d
      (if okL && okR then [run] else []) ++ pyWordsAux rest (some (run.getLastD c))
    else pyWordsAux cs (some c)
termination_by l _ => l.length
decreasing_by
  all_goals simp_wf
  all_goals
    first
      | omega
      | exact Nat.lt_succ_of_le (le_trans (dropWhile_len_le _ _) (by omega))
      | exact Nat.lt_succ_of_le (dropWhile_len_le _ _)

/-- `KeywordScorer.extract_keywords`: lowercase, tokenize on word boundaries,
keep tokens of length at least `minLength` that are not stopwords.  The
Python `set` is modelled as a `Finset`. -/
def extractKeywords (minLength : Nat) (text : String) : Finset String :=
  (((pyWordsAux (text.toList.map Char.toLower) Option.none).map
      (fun w => String.mk w)).filter
    (fun w => minLength ≤ w.length && !(stopwords.contains w))).toFinset

/-- `KeywordScorer.score_by_keywords`: the Jaccard score together with the
`matched` and `missing` sets (Python returns them as lists in arbitrary set
iteration order; the model keeps them as sets). -/
def scoreByKeywords (answer1 answer2 : String) : ℚ × Finset String × Finset String :=
  let keywords1 := extractKeywords 4 answer1
  let keywords2 := extractKeywords 4 answer2
  if keywords1 = ∅ ∧ keywords2 = ∅ then (1, ∅, ∅)
  else if keywords1 = ∅ ∨ keywords2 = ∅ then (0, ∅, keywords1 ∪ keywords2)
  else
    let inter := keywords1 ∩ keywords2
    let union := keywords1 ∪ keywords2
    let score : ℚ := if union ≠ ∅ then (inter.card : ℚ) / (union.card : ℚ) else 0
    (score, inter, keywords1 \ keywords2)

/-! ## The greedy Q&A matching of `Evaluator.evaluate_document`
(src/evaluator.py lines 326-365) -/

/-- Python substring containment `sub in l` (contiguous). -/
def isSubList (sub l : List Char) : Bool :=
  (List.range (l.length + 1)).any (fun i => sub.isPrefixOf (l.drop i))

/-- A parsed Q&A pair (`QAPair` dataclass; dataclass equality is by value). -/
structure QAPair where
  question : String
  answer : String
  sectionLabel : Option String
  deriving DecidableEq

/-- The question similarity used for matching: keyword Jaccard when both
questions yield keywords, else the binary substring-containment fallback
(0.5 / 0.0) on the lowercased questions. -/
def questionSimilarity (genQ gtQ : String) : ℚ :=
  let genK := extractKeywords 4 genQ
  let gtK := extractKeywords 4 gtQ
  if genK ≠ ∅ ∧ gtK ≠ ∅ then
    let union := genK ∪ gtK
    if union ≠ ∅ then ((genK ∩ gtK).card : ℚ) / (union.card : ℚ) else 0
  else
    let genL := genQ.toList.map Char.toLower
    let gtL := gtQ.toList.map Char.toLower
    if isSubList genL gtL || isSubList gtL genL then 1 / 2 else 0

/-- The inner `for idx, gt_pair in enumerate(ground_truth_pairs)` loop:
track the best (strictly improving) unmatched candidate. -/
def bestMatchAux (genP : QAPair) (matched : List Nat) :
    List (Nat × QAPair) → Option QAPair → ℚ → Option QAPair × ℚ
  | [], best, bestSim => (best, bestSim)
  | (i, p) :: rest, best, bestSim =>
    if i ∈ matched then bestMatchAux genP matched rest best bestSim
    else
      let sim := questionSimilarity genP.question p.question
      if bestSim < sim then bestMatchAux genP matched rest (some p) sim
      else bestMatchAux genP matched rest best bestSim

/-- Python `list.index`: index of the first element equal to `x` (length if
absent, which cannot happen at the call site). -/
def pyIndex (x : QAPair) : List QAPair → Nat
  | [] => 0
  | y :: ys => if y = x then 0 else pyIndex x ys + 1

/-- One iteration of the outer `for gen_pair in generated_pairs` loop.  The
state is the list of matched (ground-truth, generated) pairs and the
`matched_ground_truth` index set. -/
def matchStep (gtPairs : List QAPair) (st : List (QAPair × QAPair) × List Nat)
    (genP : QAPair) : List (QAPair × QAPair) × List Nat :=
  match bestMatchAux genP st.2 gtPairs.enum Option.none 0 with
  | (some best, bestSim) =>
    if 3 / 10 < bestSim then
      (st.1 ++ [(best, genP)], st.2 ++ [pyIndex best gtPairs])
    else st
  | (Option.none, _) => st

/-- The greedy matching of `evaluate_document`: for each generated pair, the
best-scoring unmatched ground-truth question, accepted when its similarity
exceeds 0.3.  Returns the matched (ground-truth, generated) pairs in order;
each entry corresponds to one `EvaluationResult`. -/
def evaluateDocumentMatching (gtPairs genPairs : List QAPair) :
    List (QAPair × QAPair) :=
  (genPairs.foldl (matchStep gtPairs) ([], [])).1

/-! ## `RiskAssessor` (src/risk_assessor.py)

The LLM collaborator is external; each per-clause call is modelled by an
injected `Outcome`.  `Outcome.failure msg` covers every exception path of
the `try` block of `_assess_clause` (LLM invocation error, no JSON found,
JSON decode error, `float()` conversion error, model validation error), in
which case the code substitutes the neutral default; `Outcome.parsed` carries
the fields successfully extracted from the JSON response, after the
`.get(..., default)` lookups and the `float(...)` coercion. -/

/-- The result of one collaborator round-trip for one clause. -/
inductive Outcome where
  | failure (msg : String)
  | parsed (complianceScore : ℚ) (riskLevel : String)
      (riskFactors recommendations : List String)
      (details : List (String × PyVal))

/-- `ClauseRiskAssessment` (a Pydantic model in the source). -/
structure ClauseRiskAssessment where
  clauseName : String
  complianceScore : ℚ
  riskLevel : String
  riskFactors : List String
  recommendations : List String
  details : List (String × PyVal)

/-- `RiskAssessmentResult` (the summary string of the source, which only
formats the numeric fields for logging, is not modelled). -/
structure RiskAssessmentResult where
  overallComplianceScore : ℚ
  overallRiskLevel : String
  structureCompleteness : ℚ
  missingClausesCount : Nat
  clauseAssessments : List ClauseRiskAssessment

/-- The clause-to-field mapping of `_extract_clauses`, in source order. -/
def clauseMapping : List (String × String) :=
  [("service_level_agreements", "warranties"),
   ("payment_terms", "commercial_terms"),
   ("termination_breach", "termination"),
   ("indemnification", "liability_indemnification"),
   ("liability_insurance", "insurance")]

/-- The keys of `CLAUSE_PROMPTS`: the same five clause categories. -/
def clausePromptNames : List String := clauseMapping.map Prod.fst

/-- The deterministic assessment synthesised for a null/empty clause. -/
def missingClauseAssessment (clauseName : String) : ClauseRiskAssessment :=
  { clauseName := clauseName
    complianceScore := 0
    riskLevel := "HIGH"
    riskFactors :=
      [pyTitle (clauseName.replace "_" " ") ++
        " clause is missing or not specified in the MSA"]
    recommendations :=
      ["Add " ++ pyTitle (clauseName.replace "_" " ") ++ " clause to the MSA"]
    details := [("status", PyVal.str "missing")] }

/-- `RiskAssessor._assess_clause` as a function of the injected collaborator
outcome.  Note the branch order of the source: the missing-prompt fallback
comes first, then the null/empty check (which returns without consulting the
collaborator at all), then the `try` block. -/
def assessClause (clauseName : String) (clauseData : PyVal) (out : Outcome) :
    ClauseRiskAssessment :=
  if !(clausePromptNames.contains clauseName) then
    { clauseName := clauseName
      complianceScore := 50
      riskLevel := "MEDIUM"
      riskFactors := ["No assessment prompt available"]
      recommendations := ["Review clause manually"]
      details := [] }
  else if !(pyTruthy clauseData) || pyEq clauseData (.dict []) then
    missingClauseAssessment clauseName
  else
    match out with
    | .failure msg =>
      { clauseName := clauseName
        complianceScore := 50
        riskLevel := "MEDIUM"
        riskFactors := ["Assessment error: " ++ msg]
        recommendations := ["Review clause manually"]
        details := [("error", PyVal.str msg)] }
    | .parsed score lvl factors recs det =>
      { clauseName := clauseName
        complianceScore :=
          -- present clauses never score exactly 0.0
          if pyTruthy clauseData && !(pyEq clauseData (.dict [])) && score = 0
          then 5 else score
        riskLevel := lvl
        riskFactors := factors
        recommendations := recs
        details := det }

/-- The wrapped/double-wrapped `MASTER_SERVICE_AGREEMENT` unwrapping of
`_extract_clauses`. -/
def msaContent (fs : List (String × PyVal)) : PyVal :=
  match lookupF "MASTER_SERVICE_AGREEMENT" fs with
  | some inner =>
    match inner with
    | .dict ifs =>
      match lookupF "MASTER_SERVICE_AGREEMENT" ifs with
      | some inner2 => inner2
      | Option.none => .dict ifs
    | other => other
  | Option.none => .dict fs

/-- `clause_data if clause_data is not None else {}`. -/
def noneToEmpty (v : PyVal) : PyVal :=
  match v with
  | PyVal.none => PyVal.dict []
  | w => w

/-- One loop iteration of `_extract_clauses`: keep the category only when
its mapped field key is present, replacing a null value by `{}`. -/
def extractEntry (cfs : List (String × PyVal)) (ckcp : String × String) :
    Option (String × PyVal) :=
  (lookupF ckcp.2 cfs).map (fun v => (ckcp.1, noneToEmpty v))

/-- `RiskAssessor._extract_clauses`: keep a clause category only when its
mapped field key is present (even with a null value, which is replaced by an
empty dict); skip it entirely when the key is absent. -/
def extractClauses (fs : List (String × PyVal)) : List (String × PyVal) :=
  match msaContent fs with
  | .dict cfs => clauseMapping.filterMap (extractEntry cfs)
  | _ => []

/-- `RiskAssessor._calculate_structure_completeness`. -/
def calculateStructureCompleteness (assessments : List ClauseRiskAssessment)
    (totalExpectedClauses : Nat) : ℚ × Nat :=
  let missingCount :=
    assessments.countP
      (fun a =>
        decide (a.complianceScore = (0 : ℚ)) &&
          (match lookupF "status" a.details with
           | some (PyVal.str s) => s = "missing"
           | _ => false))
  let presentCount := assessments.length - missingCount
  let completeness : ℚ :=
    if 0 < totalExpectedClauses then
      ((presentCount : ℚ) / (totalExpectedClauses : ℚ)) * 100
    else if 0 < presentCount then 100 else 0
  (completeness, missingCount)

/-- `max(..., default=50)` over the severity numbers. -/
def pyMaxD (d : Nat) : List Nat → Nat
  | [] => d
  | x :: xs => xs.foldl max x

/-- `risk_scores.get(level, 50)`. -/
def riskScore (level : String) : Nat :=
  if level = "CRITICAL" then 0
  else if level = "HIGH" then 25
  else if level = "MEDIUM" then 50
  else if level = "LOW" then 75
  else 50

/-- The aggregation tail of `assess_msa` (risk_assessor.py lines 506-564):
structure completeness, average compliance, the 60/40 overall score, and the
overall risk level with its escalation rule. -/
def aggregateAssessments (clauseAssessments : List ClauseRiskAssessment) :
    RiskAssessmentResult :=
  let totalExpected := clausePromptNames.length
  let sc := calculateStructureCompleteness clauseAssessments totalExpected
  let complianceScore : ℚ :=
    if clauseAssessments.isEmpty then 50
    else ((clauseAssessments.map (fun a => a.complianceScore)).sum) /
      (clauseAssessments.length : ℚ)
  let overallScore : ℚ := (6 / 10) * complianceScore + (4 / 10) * sc.1
  let maxRisk := pyMaxD 50 (clauseAssessments.map (fun a => riskScore a.riskLevel))
  let overallRisk :=
    if maxRisk ≤ 25 then (if maxRisk = 0 then "CRITICAL" else "HIGH")
    else if 75 ≤ overallScore then "LOW"
    else if 50 ≤ overallScore then "MEDIUM"
    else "HIGH"
  { overallComplianceScore := overallScore
    overallRiskLevel := overallRisk
    structureCompleteness := sc.1
    missingClausesCount := sc.2
    clauseAssessments := clauseAssessments }

/-- The per-clause assessments gathered by `assess_msa` (issued concurrently
in the source; the join preserves the clause order of `clauses.items()`,
which `asyncio.gather` guarantees). -/
def assessMsaAssessments (fs : List (String × PyVal)) (resp : String → Outcome) :
    List ClauseRiskAssessment :=
  (extractClauses fs).map (fun cd => assessClause cd.1 cd.2 (resp cd.1))

/-- `RiskAssessor.assess_msa`, end to end, with the collaborator responses
injected per clause name. -/
def assessMsa (fs : List (String × PyVal)) (resp : String → Outcome) :
    RiskAssessmentResult :=
  aggregateAssessments (assessMsaAssessments fs resp)

/-! ## Association-list lemmas -/

theorem lookupF_mem {k : String} {v : PyVal} :
    ∀ {fs : List (String × PyVal)}, lookupF k fs = some v → (k, v) ∈ fs := by
  intro fs
  induction fs with
  | nil => intro h; simp [lookupF] at h
  | cons kv rest ih =>
    intro h
    obtain ⟨k2, w⟩ := kv
    by_cases hk : k2 = k
    · subst hk
      simp [lookupF] at h
      simp [h]
    · simp [lookupF, hk] at h
      exact List.mem_cons_of_mem _ (ih h)

theorem lookupF_none_iff {k : String} :
    ∀ {fs : List (String × PyVal)},
      lookupF k fs = Option.none ↔ k ∉ fs.map Prod.fst := by
  intro fs
  induction fs with
  | nil => simp [lookupF]
  | cons kv rest ih =>
    obtain ⟨k2, w⟩ := kv
    by_cases hk : k2 = k
    · subst hk; simp [lookupF]
    · simp [lookupF, hk, ih]
      intro h
      exact fun he => hk he.symm

theorem lookupF_of_mem_nodup {k : String} {v : PyVal} :
    ∀ {fs : List (String × PyVal)}, (k, v) ∈ fs → (fs.map Prod.fst).Nodup →
      lookupF k fs = some v := by
  intro fs
  induction fs with
  | nil => intro h; simp at h
  | cons kv rest ih =>
    intro hmem hnd
    obtain ⟨k2, w⟩ := kv
    rw [List.map_cons, List.nodup_cons] at hnd
    rcases List.mem_cons.mp hmem with heq | htail
    · injection heq with h1 h2
      subst h1; subst h2
      simp [lookupF]
    · have hk : k2 ≠ k := by
        intro he
        have hmm : k ∈ rest.map Prod.fst := List.mem_map_of_mem Prod.fst htail
        exact hnd.1 (by rwa [he])
      simp [lookupF, hk]
      exact ih htail hnd.2

theorem setF_self {k : String} {v : PyVal} :
    ∀ {fs : List (String × PyVal)}, lookupF k fs = some v → setF k v fs = fs := by
  intro fs
  induction fs with
  | nil => intro h; simp [lookupF] at h
  | cons kv rest ih =>
    intro h
    obtain ⟨k2, w⟩ := kv
    by_cases hk : k2 = k
    · subst hk
      simp [lookupF] at h
      simp [setF, h]
    · simp [lookupF, hk] at h
      simp [setF, hk, ih h]

/-! ## Reflexivity of Python equality -/

theorem pyMemKV_of_mem {k : String} {v : PyVal} :
    ∀ {gs : List (String × PyVal)}, (k, v) ∈ gs → pyEq v v = true →
      pyMemKV k v gs = true := by
  intro gs
  induction gs with
  | nil => intro h; simp at h
  | cons kv rest ih =>
    intro hmem hrefl
    obtain ⟨k2, w⟩ := kv
    rcases List.mem_cons.mp hmem with heq | htail
    · injection heq with h1 h2
      subst h1; subst h2
      simp [pyMemKV, hrefl]
    · simp [pyMemKV, ih htail hrefl]

theorem pyEqSub_of :
    ∀ {fs gs : List (String × PyVal)},
      (∀ kv ∈ fs, pyMemKV kv.1 kv.2 gs = true) → pyEqSub fs gs = true := by
  intro fs gs
  induction fs with
  | nil => intro _; simp [pyEqSub]
  | cons kv rest ih =>
    intro h
    obtain ⟨k, v⟩ := kv
    simp [pyEqSub]
    refine ⟨h (k, v) (List.mem_cons_self _ _), ih ?_⟩
    intro kv2 hkv2
    exact h kv2 (List.mem_cons_of_mem _ hkv2)

theorem pyEqL_refl :
    ∀ {xs : List PyVal}, (∀ x ∈ xs, pyEq x x = true) → pyEqL xs xs = true := by
  intro xs
  induction xs with
  | nil => intro _; simp [pyEqL]
  | cons x rest ih =>
    intro h
    simp [pyEqL]
    exact ⟨h x (List.mem_cons_self _ _), ih fun y hy => h y (List.mem_cons_of_mem _ hy)⟩

theorem pyEq_refl : ∀ v : PyVal, pyEq v v = true
  | .none => by simp [pyEq]
  | .bool b => by simp [pyEq]
  | .int n => by simp [pyEq]
  | .str s => by simp [pyEq]
  | .list xs => by
    have h : ∀ x ∈ xs, pyEq x x = true := by
      intro x hx
      have : sizeOf x < sizeOf xs := List.sizeOf_lt_of_mem hx
      exact pyEq_refl x
    simp [pyEq]
    exact pyEqL_refl h
  | .dict fs => by
    have h : ∀ kv ∈ fs, pyMemKV kv.1 kv.2 fs = true := by
      intro kv hkv
      have hs : sizeOf kv < sizeOf fs := List.sizeOf_lt_of_mem hkv
      have hv : sizeOf kv.2 < sizeOf fs := by
        obtain ⟨a, b⟩ := kv
        simp at hs ⊢
        omega
      exact pyMemKV_of_mem hkv (pyEq_refl kv.2)
    simp [pyEq]
    exact pyEqSub_of h
termination_by v => sizeOf v
decreasing_by
  all_goals simp_wf
  · have := List.sizeOf_lt_of_mem hx
    omega
  · omega

theorem pyIn_of_mem {x : PyVal} {xs : List PyVal} (h : x ∈ xs) :
    pyIn x xs = true := by
  simp [pyIn, List.any_eq_true]
  exact ⟨x, h, pyEq_refl x⟩

/-! ## Idempotence of the merge -/

theorem recNDF_keys_nodup :
    ∀ {fs : List (String × PyVal)}, recNDF fs = true → (fs.map Prod.fst).Nodup := by
  intro fs
  induction fs with
  | nil => intro _; simp
  | cons kv rest ih =>
    intro h
    obtain ⟨k, v⟩ := kv
    rw [recNDF] at h
    simp only [Bool.and_eq_true] at h
    rw [List.map_cons, List.nodup_cons]
    refine ⟨?_, ih h.2⟩
    intro hk
    obtain ⟨⟨k2, w⟩, hmem, he⟩ := List.mem_map.mp hk
    have h2 := h.1.1
    rw [Bool.not_eq_true'] at h2
    rw [List.any_eq_false] at h2
    have h3 := h2 (k2, w) hmem
    simp at h3 he
    exact h3 he

theorem recNDF_val :
    ∀ {fs : List (String × PyVal)} {k : String} {v : PyVal},
      recNDF fs = true → (k, v) ∈ fs → recND v = true := by
  intro fs
  induction fs with
  | nil => intro k v _ h; simp at h
  | cons kv rest ih =>
    intro k v h hmem
    obtain ⟨k2, w⟩ := kv
    rw [recNDF] at h
    simp only [Bool.and_eq_true] at h
    rcases List.mem_cons.mp hmem with heq | htail
    · injection heq with h1 h2
      subst h2
      exact h.1.2
    · exact ih h.2 htail

theorem mergeFields_self_aux :
    ∀ (rest fs : List (String × PyVal)),
      (fs.map Prod.fst).Nodup →
      (∀ kv ∈ rest, kv ∈ fs) →
      (∀ kv ∈ rest, mergeVal kv.2 kv.2 = some kv.2) →
      mergeFields fs rest = some fs := by
  intro rest
  induction rest with
  | nil => intro fs _ _ _; simp [mergeFields]
  | cons kv rest2 ih =>
    intro fs hnd hsub hmv
    obtain ⟨k, v⟩ := kv
    have hlk : lookupF k fs = some v :=
      lookupF_of_mem_nodup (hsub (k, v) (List.mem_cons_self _ _)) hnd
    have hmv1 : mergeVal v v = some v := hmv (k, v) (List.mem_cons_self _ _)
    have hkey : mergeKey fs k v = some fs := by
      rw [mergeKey, hlk]
      simp [hmv1, setF_self hlk]
    rw [mergeFields, hkey]
    exact ih fs hnd (fun kv2 h2 => hsub kv2 (List.mem_cons_of_mem _ h2))
      (fun kv2 h2 => hmv (kv2) (List.mem_cons_of_mem _ h2))

theorem mergeVal_self : ∀ v : PyVal, recND v = true → mergeVal v v = some v
  | .none => by intro _; simp [mergeVal]
  | .bool b => by intro _; simp [mergeVal, pyEq]
  | .int n => by intro _; simp [mergeVal, pyEq]
  | .str s => by
    intro _
    by_cases h0 : s = ""
    · subst h0; simp [mergeVal, pyEq]
    · by_cases h1 : pyStripS s = "" <;>
        simp [mergeVal, pyEq, pyTruthy, h0, h1]
  | .list xs => by
    intro _
    have hfilter : xs.filter (fun x => !(pyIn x xs)) = [] := by
      rw [List.filter_eq_nil]
      intro x hx
      simp [pyIn_of_mem hx]
    simp [mergeVal, hfilter]
  | .dict fs => by
    intro hnd
    have hndf : recNDF fs = true := by rwa [recND] at hnd
    have hmf : mergeFields fs fs = some fs := by
      refine mergeFields_self_aux fs fs (recNDF_keys_nodup hndf) (fun kv h => h) ?_
      intro kv hkv
      obtain ⟨a, b⟩ := kv
      have hs : sizeOf b < sizeOf fs := by
        have := List.sizeOf_lt_of_mem hkv
        simp at this
        omega
      exact mergeVal_self b (recNDF_val hndf hkv)
    simp [mergeVal, hmf]
termination_by v => sizeOf v
decreasing_by
  all_goals simp_wf
  omega

/-- Claim C7: merge is idempotent.  For every structured record `X` with no
null fields (and, an invariant of the dict representation, pairwise-distinct
keys in every dict), `merge(X, X) == X`: nested objects recurse to
themselves, equal lists deduplicate back to the original list, and equal
scalars are kept from the base side.  (The proof shows the no-null-fields
hypothesis is not even needed: identical null fields are also kept.) -/
theorem c7_merge_idempotent (fs : List (String × PyVal))
    (hnd : recND (.dict fs) = true) (hnn : noNull (.dict fs) = true) :
    deepMerge fs fs = some fs := by
  have hndf : recNDF fs = true := by rwa [recND] at hnd
  rw [deepMerge]
  refine mergeFields_self_aux fs fs (recNDF_keys_nodup hndf) (fun kv h => h) ?_
  intro kv hkv
  obtain ⟨a, b⟩ := kv
  exact mergeVal_self b (recNDF_val hndf hkv)

/-- Witness for C7 at a concrete record with a string field, a nested object
and a list with repeated elements. -/
theorem c7_merge_idempotent_witness :
    deepMerge
      [("a", PyVal.str "x"), ("b", PyVal.dict [("c", PyVal.str "y")]),
        ("d", PyVal.list [PyVal.str "y", PyVal.str "y"])]
      [("a", PyVal.str "x"), ("b", PyVal.dict [("c", PyVal.str "y")]),
        ("d", PyVal.list [PyVal.str "y", PyVal.str "y"])] =
    some
      [("a", PyVal.str "x"), ("b", PyVal.dict [("c", PyVal.str "y")]),
        ("d", PyVal.list [PyVal.str "y", PyVal.str "y"])] :=
  c7_merge_idempotent _
    (by simp +decide [recND, recNDF, recNDL])
    (by simp +decide [noNull, noNullF, noNullL])

/-! ## Support lemmas for the merge preservation theorem -/

theorem recNDL_mem :
    ∀ {xs : List PyVal}, recNDL xs = true → ∀ {x}, x ∈ xs → recND x = true := by
  intro xs
  induction xs with
  | nil => intro _ x h; simp at h
  | cons y rest ih =>
    intro h x hx
    rw [recNDL] at h
    simp only [Bool.and_eq_true] at h
    rcases List.mem_cons.mp hx with he | ht
    · subst he; exact h.1
    · exact ih h.2 ht

theorem recNDL_append {xs ys : List PyVal}
    (hx : recNDL xs = true) (hy : recNDL ys = true) : recNDL (xs ++ ys) = true := by
  induction xs with
  | nil => simpa using hy
  | cons z rest ih =>
    rw [recNDL] at hx
    simp only [Bool.and_eq_true] at hx
    rw [List.cons_append, recNDL]
    simp only [Bool.and_eq_true]
    exact ⟨hx.1, ih hx.2⟩

theorem recNDL_filter {xs : List PyVal} (p : PyVal → Bool)
    (hx : recNDL xs = true) : recNDL (xs.filter p) = true := by
  induction xs with
  | nil => simpa using hx
  | cons z rest ih =>
    rw [recNDL] at hx
    simp only [Bool.and_eq_true] at hx
    rw [List.filter_cons]
    by_cases hp : p z
    · simp only [hp, if_true, recNDL, Bool.and_eq_true]
      exact ⟨hx.1, ih hx.2⟩
    · simp only [hp, Bool.false_eq_true, if_false]
      exact ih hx.2

theorem compatF_mem :
    ∀ {fs gs : List (String × PyVal)}, compatF fs gs = true →
      ∀ {k bv}, (k, bv) ∈ fs → compatF1 k bv gs = true := by
  intro fs gs
  induction fs with
  | nil => intro _ k bv h; simp at h
  | cons kv rest ih =>
    intro h k bv hx
    obtain ⟨k2, w⟩ := kv
    rw [compatF] at h
    simp only [Bool.and_eq_true] at h
    rcases List.mem_cons.mp hx with he | ht
    · injection he with h1 h2; subst h1; subst h2; exact h.1
    · exact ih h.2 ht

theorem compatF1_mem :
    ∀ {gs : List (String × PyVal)} {k : String} {bv : PyVal},
      compatF1 k bv gs = true → ∀ {v}, (k, v) ∈ gs → compat bv v = true := by
  intro gs
  induction gs with
  | nil => intro k bv _ v h; simp at h
  | cons kv rest ih =>
    intro k bv h v hx
    obtain ⟨k2, w⟩ := kv
    rw [compatF1] at h
    simp only [Bool.and_eq_true] at h
    rcases List.mem_cons.mp hx with he | ht
    · injection he with h1 h2
      subst h1; subst h2
      have := h.1
      simp at this
      exact this
    · exact ih h.2 ht

theorem keys_setF {k : String} {m : PyVal} :
    ∀ {res : List (String × PyVal)},
      (setF k m res).map Prod.fst = res.map Prod.fst := by
  intro res
  induction res with
  | nil => simp [setF]
  | cons kv rest ih =>
    obtain ⟨k2, w⟩ := kv
    rw [setF]
    by_cases hk : k2 = k
    · simp [hk]
    · simp [hk, ih]

theorem setF_length {k : String} {m : PyVal} :
    ∀ {res : List (String × PyVal)}, (setF k m res).length = res.length := by
  intro res
  induction res with
  | nil => simp [setF]
  | cons kv rest ih =>
    obtain ⟨k2, w⟩ := kv
    rw [setF]
    by_cases hk : k2 = k
    · simp [hk]
    · simp [hk, ih]

theorem mem_setF {k : String} {m : PyVal} :
    ∀ {res : List (String × PyVal)} {kv : String × PyVal},
      kv ∈ setF k m res → kv = (k, m) ∨ kv ∈ res := by
  intro res
  induction res with
  | nil => intro kv h; simp [setF] at h
  | cons kv2 rest ih =>
    intro kv h
    obtain ⟨k2, w⟩ := kv2
    rw [setF] at h
    by_cases hk : k2 = k
    · simp only [hk, if_true] at h
      rcases List.mem_cons.mp h with he | ht
      · exact Or.inl he
      · exact Or.inr (List.mem_cons_of_mem _ ht)
    · simp only [hk, if_false] at h
      rcases List.mem_cons.mp h with he | ht
      · exact Or.inr (he ▸ List.mem_cons_self _ _)
      · rcases ih ht with he2 | ht2
        · exact Or.inl he2
        · exact Or.inr (List.mem_cons_of_mem _ ht2)

theorem recNDF_iff :
    ∀ fs : List (String × PyVal),
      recNDF fs = true ↔
        ((fs.map Prod.fst).Nodup ∧ ∀ kv ∈ fs, recND kv.2 = true) := by
  intro fs
  induction fs with
  | nil => simp [recNDF]
  | cons kv rest ih =>
    obtain ⟨k, v⟩ := kv
    rw [recNDF]
    simp only [Bool.and_eq_true, ih, List.map_cons, List.nodup_cons, List.mem_cons,
      Bool.not_eq_true', List.any_eq_false, decide_eq_true_eq, List.mem_map]
    constructor
    · rintro ⟨⟨hany, hv⟩, hnd, hvals⟩
      refine ⟨⟨?_, hnd⟩, ?_⟩
      · rintro ⟨kv2, hkv2, he⟩
        exact hany kv2 hkv2 he
      · rintro kv2 (he | hm)
        · subst he; exact hv
        · exact hvals kv2 hm
    · rintro ⟨⟨hk, hnd⟩, hvals⟩
      refine ⟨⟨?_, hvals (k, v) (Or.inl rfl)⟩, hnd, fun kv2 hm => hvals kv2 (Or.inr hm)⟩
      intro kv2 hkv2 he
      exact hk ⟨kv2, hkv2, he⟩

theorem recNDF_setF {res : List (String × PyVal)} {k : String} {m : PyVal}
    (hr : recNDF res = true) (hm : recND m = true) :
    recNDF (setF k m res) = true := by
  rw [recNDF_iff] at hr ⊢
  refine ⟨by rw [keys_setF]; exact hr.1, ?_⟩
  intro kv hkv
  rcases mem_setF hkv with he | hmem
  · rw [he]; exact hm
  · exact hr.2 kv hmem

theorem recNDF_append_one {res : List (String × PyVal)} {k : String} {v : PyVal}
    (hr : recNDF res = true) (hv : recND v = true)
    (habs : lookupF k res = Option.none) :
    recNDF (res ++ [(k, v)]) = true := by
  rw [recNDF_iff] at hr ⊢
  have hk : k ∉ res.map Prod.fst := lookupF_none_iff.mp habs
  constructor
  · rw [List.map_append]
    rw [List.nodup_append]
    refine ⟨hr.1, by simp, ?_⟩
    intro x hx
    simp only [List.map_cons, List.map_nil, List.mem_singleton]
    intro he
    exact hk (he ▸ hx)
  · intro kv hkv
    rcases List.mem_append.mp hkv with hmem | hone
    · exact hr.2 kv hmem
    · simp at hone
      rw [hone]
      exact hv

theorem lookupF_setF_same {res : List (String × PyVal)} {k : String} {bv m : PyVal}
    (h : lookupF k res = some bv) : lookupF k (setF k m res) = some m := by
  induction res with
  | nil => simp [lookupF] at h
  | cons kv rest ih =>
    obtain ⟨k2, w⟩ := kv
    rw [setF]
    by_cases hk : k2 = k
    · simp [hk, lookupF]
    · rw [lookupF, if_neg hk] at h
      rw [if_neg hk, lookupF, if_neg hk]
      exact ih h

theorem lookupF_setF_other {res : List (String × PyVal)} {k k2 : String} {m : PyVal}
    (h : k2 ≠ k) : lookupF k2 (setF k m res) = lookupF k2 res := by
  induction res with
  | nil => simp [setF]
  | cons kv rest ih =>
    obtain ⟨k3, w⟩ := kv
    rw [setF]
    by_cases hk : k3 = k
    · subst hk
      have h2 : ¬ (k3 = k2) := fun he => h he.symm
      simp [lookupF, h2]
    · rw [if_neg hk]
      by_cases he : k3 = k2
      · simp [lookupF, he]
      · simp only [lookupF, he, if_false]
        exact ih

theorem lookupF_append {res res2 : List (String × PyVal)} {k : String} :
    lookupF k (res ++ res2) =
      match lookupF k res with
      | some v => some v
      | Option.none => lookupF k res2 := by
  induction res with
  | nil => simp [lookupF]
  | cons kv rest ih =>
    obtain ⟨k2, w⟩ := kv
    rw [List.cons_append, lookupF, lookupF]
    by_cases hk : k2 = k
    · simp [hk]
    · simp only [hk, if_false]
      exact ih

theorem lookupF_some_mem_keys {res : List (String × PyVal)} {k : String} {v : PyVal}
    (h : lookupF k res = some v) : k ∈ res.map Prod.fst := by
  have := lookupF_mem h
  exact List.mem_map_of_mem Prod.fst this

theorem lookupF_append_one_same {res : List (String × PyVal)} {k : String} {v : PyVal}
    (h : lookupF k res = Option.none) : lookupF k (res ++ [(k, v)]) = some v := by
  rw [lookupF_append, h]
  simp [lookupF]

theorem lookupF_append_one_other {res : List (String × PyVal)} {k k2 : String} {v : PyVal}
    (h : k2 ≠ k) : lookupF k2 (res ++ [(k, v)]) = lookupF k2 res := by
  rw [lookupF_append]
  cases hlk : lookupF k2 res with
  | none =>
    have h2 : ¬ (k = k2) := fun he => h he.symm
    simp [lookupF, h2]
  | some w => rfl

/-- The field-iteration of `_deep_merge`, specified: under type-compatible,
distinct-key hypotheses the loop succeeds and each key of the result is the
original value, the update value (for new keys), or the value-level merge of
the two. -/
theorem mergeFields_spec_aux :
    ∀ (rest res : List (String × PyVal)),
      recNDF res = true → recNDF rest = true →
      (∀ kv ∈ rest, ∀ bv, lookupF kv.1 res = some bv → compat bv kv.2 = true) →
      (∀ kv ∈ rest, ∀ bv, recND bv = true → compat bv kv.2 = true →
        ∃ m, mergeVal bv kv.2 = some m ∧ recND m = true) →
      ∃ res2, mergeFields res rest = some res2 ∧
        recNDF res2 = true ∧
        (∀ k2, k2 ∉ rest.map Prod.fst → lookupF k2 res2 = lookupF k2 res) ∧
        (∀ kv ∈ rest,
          (∀ bv, lookupF kv.1 res = some bv →
            ∃ mv, mergeVal bv kv.2 = some mv ∧ lookupF kv.1 res2 = some mv) ∧
          (lookupF kv.1 res = Option.none → lookupF kv.1 res2 = some kv.2)) ∧
        res.length ≤ res2.length := by
  intro rest
  induction rest with
  | nil =>
    intro res hnd _ _ _
    refine ⟨res, by simp [mergeFields], hnd, fun _ _ => rfl, by simp, le_refl _⟩
  | cons kv rest2 ih =>
    intro res hndR hndRest hcomp hstep
    obtain ⟨k, v⟩ := kv
    have hndIff := (recNDF_iff ((k, v) :: rest2)).mp hndRest
    have hkNotRest2 : k ∉ rest2.map Prod.fst := by
      have := hndIff.1
      rw [List.map_cons, List.nodup_cons] at this
      exact this.1
    have hndV : recND v = true := hndIff.2 (k, v) (List.mem_cons_self _ _)
    have hndRest2 : recNDF rest2 = true := by
      rw [recNDF_iff]
      refine ⟨?_, fun kv2 h2 => hndIff.2 kv2 (List.mem_cons_of_mem _ h2)⟩
      have := hndIff.1
      rw [List.map_cons, List.nodup_cons] at this
      exact this.2
    cases hlk : lookupF k res with
    | none =>
      -- new key: result[key] = value
      have hkey : mergeKey res k v = some (res ++ [(k, v)]) := by
        rw [mergeKey, hlk]
      have hnd' : recNDF (res ++ [(k, v)]) = true := recNDF_append_one hndR hndV hlk
      have hcomp' : ∀ kv2 ∈ rest2, ∀ bv,
          lookupF kv2.1 (res ++ [(k, v)]) = some bv → compat bv kv2.2 = true := by
        intro kv2 h2 bv hbv
        have hne : kv2.1 ≠ k := by
          intro he
          exact hkNotRest2 (he ▸ List.mem_map_of_mem Prod.fst h2)
        rw [lookupF_append_one_other hne] at hbv
        exact hcomp kv2 (List.mem_cons_of_mem _ h2) bv hbv
      have hstep' : ∀ kv2 ∈ rest2, ∀ bv, recND bv = true →
          compat bv kv2.2 = true →
          ∃ m, mergeVal bv kv2.2 = some m ∧ recND m = true :=
        fun kv2 h2 => hstep kv2 (List.mem_cons_of_mem _ h2)
      obtain ⟨res2, hmf, hnd2, hsame, hentries, hlen⟩ :=
        ih (res ++ [(k, v)]) hnd' hndRest2 hcomp' hstep'
      refine ⟨res2, ?_, hnd2, ?_, ?_, ?_⟩
      · rw [mergeFields, hkey]
        exact hmf
      · intro k2 hk2
        rw [List.map_cons, List.mem_cons] at hk2
        push_neg at hk2
        rw [hsame k2 hk2.2, lookupF_append_one_other hk2.1]
      · intro kv2 h2
        rcases List.mem_cons.mp h2 with he | ht
        · subst he
          constructor
          · intro bv hbv
            rw [hlk] at hbv
            exact Option.noConfusion hbv
          · intro _
            rw [hsame k hkNotRest2]
            exact lookupF_append_one_same hlk
        · have hne : kv2.1 ≠ k := by
            intro he
            exact hkNotRest2 (he ▸ List.mem_map_of_mem Prod.fst ht)
          have := hentries kv2 ht
          constructor
          · intro bv hbv
            exact this.1 bv (by rw [lookupF_append_one_other hne]; exact hbv)
          · intro hnone
            exact this.2 (by rw [lookupF_append_one_other hne]; exact hnone)
      · calc res.length ≤ (res ++ [(k, v)]).length := by simp
          _ ≤ res2.length := hlen
    | some bv =>
      -- existing key: merge the two values
      have hndBv : recND bv = true :=
        ((recNDF_iff res).mp hndR).2 (k, bv) (lookupF_mem hlk)
      have hcompV : compat bv v = true :=
        hcomp (k, v) (List.mem_cons_self _ _) bv hlk
      obtain ⟨m, hm, hndM⟩ :=
        hstep (k, v) (List.mem_cons_self _ _) bv hndBv hcompV
      have hkey : mergeKey res k v = some (setF k m res) := by
        rw [mergeKey, hlk]
        simp [hm]
      have hnd' : recNDF (setF k m res) = true := recNDF_setF hndR hndM
      have hcomp' : ∀ kv2 ∈ rest2, ∀ bv2,
          lookupF kv2.1 (setF k m res) = some bv2 → compat bv2 kv2.2 = true := by
        intro kv2 h2 bv2 hbv
        have hne : kv2.1 ≠ k := by
          intro he
          exact hkNotRest2 (he ▸ List.mem_map_of_mem Prod.fst h2)
        rw [lookupF_setF_other hne] at hbv
        exact hcomp kv2 (List.mem_cons_of_mem _ h2) bv2 hbv
      have hstep' : ∀ kv2 ∈ rest2, ∀ bv2, recND bv2 = true →
          compat bv2 kv2.2 = true →
          ∃ m2, mergeVal bv2 kv2.2 = some m2 ∧ recND m2 = true :=
        fun kv2 h2 => hstep kv2 (List.mem_cons_of_mem _ h2)
      obtain ⟨res2, hmf, hnd2, hsame, hentries, hlen⟩ :=
        ih (setF k m res) hnd' hndRest2 hcomp' hstep'
      refine ⟨res2, ?_, hnd2, ?_, ?_, ?_⟩
      · rw [mergeFields, hkey]
        exact hmf
      · intro k2 hk2
        rw [List.map_cons, List.mem_cons] at hk2
        push_neg at hk2
        rw [hsame k2 hk2.2, lookupF_setF_other hk2.1]
      · intro kv2 h2
        rcases List.mem_cons.mp h2 with he | ht
        · subst he
          constructor
          · intro bv2 hbv
            rw [hlk] at hbv
            injection hbv with hbv2
            subst hbv2
            refine ⟨m, hm, ?_⟩
            rw [hsame k hkNotRest2]
            exact lookupF_setF_same hlk
          · intro hnone
            rw [hlk] at hnone
            exact Option.noConfusion hnone
        · have hne : kv2.1 ≠ k := by
            intro he
            exact hkNotRest2 (he ▸ List.mem_map_of_mem Prod.fst ht)
          have := hentries kv2 ht
          constructor
          · intro bv2 hbv
            exact this.1 bv2 (by rw [lookupF_setF_other hne]; exact hbv)
          · intro hnone
            exact this.2 (by rw [lookupF_setF_other hne]; exact hnone)
      · calc res.length = (setF k m res).length := (setF_length).symm
          _ ≤ res2.length := hlen

/-! ## Path lemmas -/

theorem lookupPath_none_eq {p : List String} {w : PyVal}
    (h : lookupPath PyVal.none p = some w) : w = PyVal.none := by
  cases p with
  | nil => rw [lookupPath] at h; injection h with h2; exact h2.symm
  | cons k ks => simp [lookupPath] at h

theorem genuineAt_none (p : List String) : genuineAt PyVal.none p = false := by
  cases p with
  | nil => simp [genuineAt, lookupPath, genuineVal]
  | cons k ks => simp [genuineAt, lookupPath]

theorem lookupPath_str_eq {s : String} {p : List String} {w : PyVal}
    (h : lookupPath (PyVal.str s) p = some w) : p = [] ∧ w = PyVal.str s := by
  cases p with
  | nil => rw [lookupPath] at h; injection h with h2; exact ⟨rfl, h2.symm⟩
  | cons k ks => simp [lookupPath] at h

theorem lookupPath_list_cons {xs : List PyVal} {k : String} {ks : List String} :
    lookupPath (PyVal.list xs) (k :: ks) = Option.none := by
  simp [lookupPath]

theorem genuineAt_nil (v : PyVal) : genuineAt v [] = genuineVal v := by
  simp [genuineAt, lookupPath]

theorem genuineAt_str_cons {s : String} {k : String} {ks : List String} :
    genuineAt (PyVal.str s) (k :: ks) = false := by
  simp [genuineAt, lookupPath]

theorem genuineAt_list_cons {xs : List PyVal} {k : String} {ks : List String} :
    genuineAt (PyVal.list xs) (k :: ks) = false := by
  simp [genuineAt, lookupPath]

theorem lookupPath_bool_eq {b : Bool} {p : List String} {w : PyVal}
    (h : lookupPath (PyVal.bool b) p = some w) : p = [] ∧ w = PyVal.bool b := by
  cases p with
  | nil => rw [lookupPath] at h; injection h with h2; exact ⟨rfl, h2.symm⟩
  | cons k ks => simp [lookupPath] at h

theorem lookupPath_int_eq {i : Int} {p : List String} {w : PyVal}
    (h : lookupPath (PyVal.int i) p = some w) : p = [] ∧ w = PyVal.int i := by
  cases p with
  | nil => rw [lookupPath] at h; injection h with h2; exact ⟨rfl, h2.symm⟩
  | cons k ks => simp [lookupPath] at h

theorem genuineAt_bool_cons {b : Bool} {k : String} {ks : List String} :
    genuineAt (PyVal.bool b) (k :: ks) = false := by
  simp [genuineAt, lookupPath]

theorem genuineAt_int_cons {i : Int} {k : String} {ks : List String} :
    genuineAt (PyVal.int i) (k :: ks) = false := by
  simp [genuineAt, lookupPath]

theorem lookupPath_dict_cons {fs : List (String × PyVal)} {k : String}
    {ks : List String} :
    lookupPath (PyVal.dict fs) (k :: ks) =
      match lookupF k fs with
      | some w => lookupPath w ks
      | Option.none => Option.none := by
  rw [lookupPath]

theorem genuineAt_dict_cons {fs : List (String × PyVal)} {k : String}
    {ks : List String} :
    genuineAt (PyVal.dict fs) (k :: ks) =
      match lookupF k fs with
      | some w => genuineAt w ks
      | Option.none => false := by
  rw [genuineAt, lookupPath_dict_cons]
  cases lookupF k fs with
  | none => rfl
  | some w => rfl

theorem lookupF_some_ne_nil {res : List (String × PyVal)} {k : String} {w : PyVal}
    (h : lookupF k res = some w) : res ≠ [] := by
  intro he
  subst he
  rw [lookupF] at h
  exact Option.noConfusion h

theorem sizeOf_pyval_pos (v : PyVal) : 1 ≤ sizeOf v := by
  cases v <;> simp <;> omega

theorem sizeOf_val_lt_dict {fs : List (String × PyVal)} {k : String} {v : PyVal}
    (h : (k, v) ∈ fs) : sizeOf v < sizeOf (PyVal.dict fs) := by
  have := List.sizeOf_lt_of_mem h
  simp at this ⊢
  omega

theorem lookupPath_dict_lookup {fs : List (String × PyVal)} {k : String}
    {ks : List String} {w : PyVal} (h : lookupF k fs = some w) :
    lookupPath (PyVal.dict fs) (k :: ks) = lookupPath w ks := by
  rw [lookupPath_dict_cons, h]

theorem lookupPath_dict_nolookup {fs : List (String × PyVal)} {k : String}
    {ks : List String} (h : lookupF k fs = Option.none) :
    lookupPath (PyVal.dict fs) (k :: ks) = Option.none := by
  rw [lookupPath_dict_cons, h]

theorem genuineAt_dict_lookup {fs : List (String × PyVal)} {k : String}
    {ks : List String} {w : PyVal} (h : lookupF k fs = some w) :
    genuineAt (PyVal.dict fs) (k :: ks) = genuineAt w ks := by
  rw [genuineAt, lookupPath_dict_lookup h, genuineAt]

theorem genuineAt_dict_nolookup {fs : List (String × PyVal)} {k : String}
    {ks : List String} (h : lookupF k fs = Option.none) :
    genuineAt (PyVal.dict fs) (k :: ks) = false := by
  rw [genuineAt, lookupPath_dict_nolookup h]

/-- Value-level specification of `_deep_merge` on type-compatible trees:
the merge succeeds, any path genuine in either side stays genuine, and a
path holding a genuine string in the base keeps exactly the base value
(first-chunk priority). -/
theorem mergeVal_preserves :
    ∀ (n : Nat) (v bv : PyVal), sizeOf v ≤ n →
      recND bv = true → recND v = true → compat bv v = true →
      ∃ m, mergeVal bv v = some m ∧ recND m = true ∧
        (∀ p, (genuineAt bv p = true ∨ genuineAt v p = true) →
          genuineAt m p = true) ∧
        (∀ p s, lookupPath bv p = some (.str s) → pyStripS s ≠ "" →
          lookupPath m p = some (.str s)) := by
  intro n
  induction n with
  | zero =>
    intro v bv hsz
    exact absurd hsz (by have := sizeOf_pyval_pos v; omega)
  | succ n ih =>
    intro v bv hsz hNb hNv hC
    cases hbv : bv with
    | none =>
      subst hbv
      by_cases hvn : v = PyVal.none
      · subst hvn
        refine ⟨.none, by simp [mergeVal], by simp [recND], ?_, ?_⟩
        · intro p hp
          rcases hp with hp | hp <;> rw [genuineAt_none] at hp <;>
            exact absurd hp (by simp)
        · intro p s hb _
          exact PyVal.noConfusion (lookupPath_none_eq hb)
      · refine ⟨v, ?_, hNv, ?_, ?_⟩
        · cases v with
          | none => exact absurd rfl hvn
          | bool b => simp [mergeVal]
          | int i => simp [mergeVal]
          | str s => simp [mergeVal]
          | list xs => simp [mergeVal]
          | dict fs => simp [mergeVal]
        · intro p hp
          rcases hp with hp | hp
          · rw [genuineAt_none] at hp; exact absurd hp (by simp)
          · exact hp
        · intro p s hb _
          exact PyVal.noConfusion (lookupPath_none_eq hb)
    | bool b =>
      subst hbv
      cases v with
      | none =>
        refine ⟨.bool b, by simp [mergeVal], hNb, ?_, ?_⟩
        · intro p hp
          rcases hp with hp | hp
          · exact hp
          · rw [genuineAt_none] at hp; exact absurd hp (by simp)
        · intro p s hb _; exact hb
      | bool u =>
        refine ⟨.bool b, by simp [mergeVal, pyEq], hNb, ?_, ?_⟩
        · intro p hp
          cases p with
          | nil => simp [genuineAt_nil, genuineVal]
          | cons k ks =>
            rcases hp with hp | hp <;> rw [genuineAt_bool_cons] at hp <;>
              exact absurd hp (by simp)
        · intro p s hb _; exact hb
      | int i => simp [compat] at hC
      | str s => simp [compat] at hC
      | list ys => simp [compat] at hC
      | dict gs => simp [compat] at hC
    | int i =>
      subst hbv
      cases v with
      | none =>
        refine ⟨.int i, by simp [mergeVal], hNb, ?_, ?_⟩
        · intro p hp
          rcases hp with hp | hp
          · exact hp
          · rw [genuineAt_none] at hp; exact absurd hp (by simp)
        · intro p s hb _; exact hb
      | int u =>
        refine ⟨.int i, by simp [mergeVal, pyEq], hNb, ?_, ?_⟩
        · intro p hp
          cases p with
          | nil => simp [genuineAt_nil, genuineVal]
          | cons k ks =>
            rcases hp with hp | hp <;> rw [genuineAt_int_cons] at hp <;>
              exact absurd hp (by simp)
        · intro p s hb _; exact hb
      | bool u => simp [compat] at hC
      | str s => simp [compat] at hC
      | list ys => simp [compat] at hC
      | dict gs => simp [compat] at hC
    | str bs =>
      subst hbv
      cases v with
      | none =>
        refine ⟨.str bs, by simp [mergeVal], hNb, ?_, ?_⟩
        · intro p hp
          rcases hp with hp | hp
          · exact hp
          · rw [genuineAt_none] at hp; exact absurd hp (by simp)
        · intro p s hb _; exact hb
      | bool b => simp [compat] at hC
      | int i => simp [compat] at hC
      | list ys => simp [compat] at hC
      | dict gs => simp [compat] at hC
      | str ss =>
        have hmain : ∃ m, mergeVal (.str bs) (.str ss) = some m ∧
            ((pyStripS bs ≠ "" ∧ m = PyVal.str bs) ∨
             (pyStripS bs = "" ∧ pyStripS ss ≠ "" ∧ m = PyVal.str ss) ∨
             (pyStripS bs = "" ∧ pyStripS ss = "" ∧
               (m = PyVal.str bs ∨ m = PyVal.str ss))) := by
          by_cases h0 : bs = ""
          · subst h0
            refine ⟨.str ss, by simp [mergeVal, pyEq], ?_⟩
            by_cases h1 : pyStripS ss = ""
            · exact Or.inr (Or.inr ⟨by simp [pyStripS, pyStrip], h1, Or.inr rfl⟩)
            · exact Or.inr (Or.inl ⟨by simp [pyStripS, pyStrip], h1, rfl⟩)
          · by_cases h1 : pyStripS ss = ""
            · refine ⟨.str bs, by simp [mergeVal, pyEq, h0, h1], ?_⟩
              by_cases h2 : pyStripS bs = ""
              · exact Or.inr (Or.inr ⟨h2, h1, Or.inl rfl⟩)
              · exact Or.inl ⟨h2, rfl⟩
            · by_cases h2 : pyStripS bs = ""
              · refine ⟨.str ss, ?_, Or.inr (Or.inl ⟨h2, h1, rfl⟩)⟩
                simp [mergeVal, pyEq, h0, h1, h2, pyTruthy]
              · refine ⟨.str bs, ?_, Or.inl ⟨h2, rfl⟩⟩
                simp [mergeVal, pyEq, h0, h1, h2, pyTruthy]
        obtain ⟨m, hm, hcase⟩ := hmain
        have hmstr : ∃ t, m = PyVal.str t := by
          rcases hcase with ⟨_, he⟩ | ⟨_, _, he⟩ | ⟨_, _, he | he⟩ <;> exact ⟨_, he⟩
        obtain ⟨t, ht⟩ := hmstr
        refine ⟨m, hm, by rw [ht]; simp [recND], ?_, ?_⟩
        · intro p hp
          cases p with
          | cons k ks =>
            rcases hp with hp | hp <;> rw [genuineAt_str_cons] at hp <;>
              exact absurd hp (by simp)
          | nil =>
            simp only [genuineAt_nil] at hp ⊢
            rcases hcase with ⟨hgb, he⟩ | ⟨hgb, hgv, he⟩ | ⟨hgb, hgv, _⟩
            · subst he
              simp only [genuineVal]
              simpa using hgb
            · subst he
              simp only [genuineVal]
              simpa using hgv
            · exfalso
              rcases hp with hp | hp <;>
                (simp only [genuineVal] at hp
                 simp [hgb, hgv] at hp)
        · intro p s hb hs
          obtain ⟨hp, hw⟩ := lookupPath_str_eq hb
          subst hp
          injection hw with hw2
          subst hw2
          rcases hcase with ⟨hgb, he⟩ | ⟨hgb, _, _⟩ | ⟨hgb, _, _⟩
          · subst he; exact hb
          · exact absurd hgb hs
          · exact absurd hgb hs
    | list bxs =>
      subst hbv
      cases v with
      | none =>
        refine ⟨.list bxs, by simp [mergeVal], hNb, ?_, ?_⟩
        · intro p hp
          rcases hp with hp | hp
          · exact hp
          · rw [genuineAt_none] at hp; exact absurd hp (by simp)
        · intro p s hb _; exact hb
      | bool b => simp [compat] at hC
      | int i => simp [compat] at hC
      | str ss => simp [compat] at hC
      | dict gs => simp [compat] at hC
      | list vxs =>
        have hNb2 : recNDL bxs = true := by rwa [recND] at hNb
        have hNv2 : recNDL vxs = true := by rwa [recND] at hNv
        refine ⟨.list (bxs ++ vxs.filter (fun x => !(pyIn x bxs))),
          by simp [mergeVal], ?_, ?_, ?_⟩
        · rw [recND]
          exact recNDL_append hNb2 (recNDL_filter _ hNv2)
        · intro p hp
          cases p with
          | cons k ks =>
            rcases hp with hp | hp <;> rw [genuineAt_list_cons] at hp <;>
              exact absurd hp (by simp)
          | nil =>
            simp only [genuineAt_nil] at hp ⊢
            simp only [genuineVal] at hp ⊢
            cases hbx : bxs with
            | cons a rest => simp
            | nil =>
              subst hbx
              rcases hp with hp | hp
              · simp at hp
              · simp only [List.nil_append]
                rw [List.filter_eq_self.mpr (fun x _ => by simp [pyIn])]
                exact hp
        · intro p s hb _
          cases p with
          | nil =>
            rw [lookupPath] at hb
            injection hb with hb2
            exact PyVal.noConfusion hb2
          | cons k ks =>
            rw [lookupPath_list_cons] at hb
            exact Option.noConfusion hb
    | dict bfs =>
      subst hbv
      cases v with
      | none =>
        refine ⟨.dict bfs, by simp [mergeVal], hNb, ?_, ?_⟩
        · intro p hp
          rcases hp with hp | hp
          · exact hp
          · rw [genuineAt_none] at hp; exact absurd hp (by simp)
        · intro p s hb _; exact hb
      | bool b => simp [compat] at hC
      | int i => simp [compat] at hC
      | str ss => simp [compat] at hC
      | list ys => simp [compat] at hC
      | dict vfs =>
        have hNbF : recNDF bfs = true := by rwa [recND] at hNb
        have hNvF : recNDF vfs = true := by rwa [recND] at hNv
        have hCF : compatF bfs vfs = true := by rwa [compat] at hC
        have hcompA : ∀ kv ∈ vfs, ∀ bv2,
            lookupF kv.1 bfs = some bv2 → compat bv2 kv.2 = true := by
          intro kv hkv bv2 hbv2
          obtain ⟨a, b⟩ := kv
          exact compatF1_mem (compatF_mem hCF (lookupF_mem hbv2)) hkv
        have hstepA : ∀ kv ∈ vfs, ∀ bv2, recND bv2 = true →
            compat bv2 kv.2 = true →
            ∃ m, mergeVal bv2 kv.2 = some m ∧ recND m = true := by
          intro kv hkv bv2 hnd2 hc2
          obtain ⟨a, b⟩ := kv
          have hszb : sizeOf b ≤ n := by
            have h1 := List.sizeOf_lt_of_mem hkv
            simp at h1 hsz
            omega
          obtain ⟨m, h1, h2, _, _⟩ :=
            ih b bv2 hszb hnd2 (((recNDF_iff vfs).mp hNvF).2 (a, b) hkv) hc2
          exact ⟨m, h1, h2⟩
        obtain ⟨res2, hmf, hnd2, hsame, hentries, hlen⟩ :=
          mergeFields_spec_aux vfs bfs hNbF hNvF hcompA hstepA
        refine ⟨.dict res2, by simp [mergeVal, hmf], by rwa [recND], ?_, ?_⟩
        · intro p hp
          cases p with
          | nil =>
            simp only [genuineAt_nil] at hp ⊢
            simp only [genuineVal] at hp ⊢
            have hres2 : res2 ≠ [] := by
              rcases hp with hp | hp
              · have hbne : bfs ≠ [] := by
                  intro he; subst he; simp at hp
                intro he2
                subst he2
                simp at hlen
                exact hbne hlen
              · have hvne : vfs ≠ [] := by
                  intro he; subst he; simp at hp
                obtain ⟨kv0, hkv0⟩ := List.exists_mem_of_ne_nil _ hvne
                have hent := hentries kv0 hkv0
                cases hlkb : lookupF kv0.1 bfs with
                | none => exact lookupF_some_ne_nil (hent.2 hlkb)
                | some bv0 =>
                  obtain ⟨mv, _, hl2⟩ := hent.1 bv0 hlkb
                  exact lookupF_some_ne_nil hl2
            cases res2 with
            | nil => exact absurd rfl hres2
            | cons a rest => simp
          | cons k ks =>
            by_cases hkv : k ∈ vfs.map Prod.fst
            · have hex : ∃ vk, lookupF k vfs = some vk := by
                cases h2 : lookupF k vfs with
                | none => exact absurd hkv (lookupF_none_iff.mp h2)
                | some w => exact ⟨w, rfl⟩
              obtain ⟨vk, hlkv⟩ := hex
              have hmemv : (k, vk) ∈ vfs := lookupF_mem hlkv
              have hent := hentries (k, vk) hmemv
              cases hlkb : lookupF k bfs with
              | none =>
                rw [genuineAt_dict_lookup (hent.2 hlkb)]
                rw [genuineAt_dict_nolookup hlkb, genuineAt_dict_lookup hlkv] at hp
                rcases hp with hp | hp
                · simp at hp
                · exact hp
              | some bvk =>
                obtain ⟨mv, hmv, hl2⟩ := hent.1 bvk hlkb
                rw [genuineAt_dict_lookup hl2]
                rw [genuineAt_dict_lookup hlkb, genuineAt_dict_lookup hlkv] at hp
                have hszk : sizeOf vk ≤ n := by
                  have h1 := List.sizeOf_lt_of_mem hmemv
                  simp at h1 hsz
                  omega
                obtain ⟨m2, hm2, _, hgen2, _⟩ :=
                  ih vk bvk hszk
                    (((recNDF_iff bfs).mp hNbF).2 (k, bvk) (lookupF_mem hlkb))
                    (((recNDF_iff vfs).mp hNvF).2 (k, vk) hmemv)
                    (hcompA (k, vk) hmemv bvk hlkb)
                rw [hmv] at hm2
                injection hm2 with hm3
                subst hm3
                exact hgen2 ks hp
            · have hlkv : lookupF k vfs = Option.none := lookupF_none_iff.mpr hkv
              rw [genuineAt_dict_nolookup hlkv] at hp
              cases hlkb : lookupF k bfs with
              | none =>
                rw [genuineAt_dict_nolookup hlkb] at hp
                rcases hp with hp | hp <;> simp at hp
              | some bvk =>
                have hres : lookupF k res2 = some bvk := by
                  rw [hsame k hkv, hlkb]
                rw [genuineAt_dict_lookup hres]
                rw [genuineAt_dict_lookup hlkb] at hp
                rcases hp with hp | hp
                · exact hp
                · simp at hp
        · intro p s hb hs
          cases p with
          | nil =>
            rw [lookupPath] at hb
            injection hb with hb2
            exact PyVal.noConfusion hb2
          | cons k ks =>
            cases hlkb : lookupF k bfs with
            | none =>
              rw [lookupPath_dict_nolookup hlkb] at hb
              exact Option.noConfusion hb
            | some bvk =>
              rw [lookupPath_dict_lookup hlkb] at hb
              by_cases hkv : k ∈ vfs.map Prod.fst
              · have hex : ∃ vk, lookupF k vfs = some vk := by
                  cases h2 : lookupF k vfs with
                  | none => exact absurd hkv (lookupF_none_iff.mp h2)
                  | some w => exact ⟨w, rfl⟩
                obtain ⟨vk, hlkv⟩ := hex
                have hmemv : (k, vk) ∈ vfs := lookupF_mem hlkv
                have hent := hentries (k, vk) hmemv
                obtain ⟨mv, hmv, hl2⟩ := hent.1 bvk hlkb
                rw [lookupPath_dict_lookup hl2]
                have hszk : sizeOf vk ≤ n := by
                  have h1 := List.sizeOf_lt_of_mem hmemv
                  simp at h1 hsz
                  omega
                obtain ⟨m2, hm2, _, _, hconf2⟩ :=
                  ih vk bvk hszk
                    (((recNDF_iff bfs).mp hNbF).2 (k, bvk) (lookupF_mem hlkb))
                    (((recNDF_iff vfs).mp hNvF).2 (k, vk) hmemv)
                    (hcompA (k, vk) hmemv bvk hlkb)
                rw [hmv] at hm2
                injection hm2 with hm3
                subst hm3
                exact hconf2 ks s hb hs
              · have hres : lookupF k res2 = some bvk := by
                  rw [hsame k hkv, hlkb]
                rw [lookupPath_dict_lookup hres]
                exact hb

/-- Counterexample to claim C1 as stated.  With `base = {"f": {}}` and
`update = {"f": 5}` the update holds a genuine (non-null, non-empty) value 5
for field `f`, the merge succeeds (no branch of the `elif` chain matches a
number against an empty dict, so the base value is silently kept), and the
output holds `{}` — not a genuine value — at `f`.  So merge can discard a
genuine value even though the two inputs are not conflicting non-empty
scalars. -/
theorem c1_counterexample :
    genuineAt (PyVal.dict [("f", PyVal.int 5)]) ["f"] = true ∧
    deepMerge [("f", PyVal.dict [])] [("f", PyVal.int 5)] =
      some [("f", PyVal.dict [])] ∧
    genuineAt (PyVal.dict [("f", PyVal.dict [])]) ["f"] = false := by
  refine ⟨?_, ?_, ?_⟩
  · simp +decide [genuineAt, lookupPath, lookupF, genuineVal]
  · simp +decide [deepMerge, mergeFields, mergeKey, mergeVal, lookupF, setF, pyEq]
  · simp +decide [genuineAt, lookupPath, lookupF, genuineVal]

/-- Claim C1 (amended): restricted to type-consistent records (wherever both
inputs are non-null at the same path they have the same scalar type or the
same container shape — no shape conflict at any path — and, an invariant of
real Python dicts, pairwise-distinct keys), the merge invariant holds:
`merge(base, update)` succeeds, every field path holding a genuine
(non-null, non-blank) value in either input still holds a genuine value in
the output, and when both inputs hold non-empty strings at the same path
the output holds the base value (first-chunk priority).  Unrestricted, the
claim is false (`c1_counterexample`): under a shape conflict a genuine
non-string update value is dropped against a falsy non-null base, and a
non-empty string update against a truthy non-string base raises
`AttributeError`. -/
theorem c1_merge_preserves_genuine (bfs ufs : List (String × PyVal))
    (hNb : recND (.dict bfs) = true) (hNu : recND (.dict ufs) = true)
    (hc : compat (.dict bfs) (.dict ufs) = true) :
    ∃ m, deepMerge bfs ufs = some m ∧
      (∀ p, (genuineAt (.dict bfs) p = true ∨ genuineAt (.dict ufs) p = true) →
        genuineAt (.dict m) p = true) ∧
      (∀ p s t, lookupPath (.dict bfs) p = some (.str s) → pyStripS s ≠ "" →
        lookupPath (.dict ufs) p = some (.str t) → pyStripS t ≠ "" →
        lookupPath (.dict m) p = some (.str s)) := by
  obtain ⟨mv, hmv, _, hgen, hconf⟩ :=
    mergeVal_preserves (sizeOf (PyVal.dict ufs)) (.dict ufs) (.dict bfs)
      (le_refl _) hNb hNu hc
  have hfields : ∃ res, mergeFields bfs ufs = some res ∧ mv = PyVal.dict res := by
    rw [mergeVal] at hmv
    cases h : mergeFields bfs ufs with
    | none => rw [h] at hmv; exact Option.noConfusion hmv
    | some res =>
      rw [h] at hmv
      simp at hmv
      exact ⟨res, rfl, hmv.symm⟩
  obtain ⟨res, hres, hmvd⟩ := hfields
  subst hmvd
  refine ⟨res, hres, hgen, ?_⟩
  intro p s t hbp hsp _ _
  exact hconf p s hbp hsp

/-- Witness for the amended C1 at a concrete pair of records: the base keeps
its non-empty string under a genuine conflict, a blank base string is
replaced, a key only in the update is added, and type-consistent integer and
boolean leaves are allowed. -/
theorem c1_merge_preserves_genuine_witness :
    compat
      (PyVal.dict [("a", PyVal.str "keep"),
        ("b", PyVal.dict [("c", PyVal.str " ")]), ("n", PyVal.int 0),
        ("f", PyVal.bool false)])
      (PyVal.dict [("a", PyVal.str "other"),
        ("b", PyVal.dict [("c", PyVal.str "new")]), ("n", PyVal.int 7),
        ("f", PyVal.bool true)]) = true ∧
    ∃ m,
      deepMerge
        [("a", PyVal.str "keep"), ("b", PyVal.dict [("c", PyVal.str " ")]),
          ("n", PyVal.int 0), ("f", PyVal.bool false)]
        [("a", PyVal.str "other"), ("b", PyVal.dict [("c", PyVal.str "new")]),
          ("n", PyVal.int 7), ("f", PyVal.bool true)] =
        some m ∧
      (∀ p, (genuineAt (PyVal.dict [("a", PyVal.str "keep"),
          ("b", PyVal.dict [("c", PyVal.str " ")]), ("n", PyVal.int 0),
          ("f", PyVal.bool false)]) p = true ∨
        genuineAt (PyVal.dict [("a", PyVal.str "other"),
          ("b", PyVal.dict [("c", PyVal.str "new")]), ("n", PyVal.int 7),
          ("f", PyVal.bool true)]) p = true) →
        genuineAt (PyVal.dict m) p = true) ∧
      (∀ p s t,
        lookupPath (PyVal.dict [("a", PyVal.str "keep"),
          ("b", PyVal.dict [("c", PyVal.str " ")]), ("n", PyVal.int 0),
          ("f", PyVal.bool false)]) p = some (.str s) →
        pyStripS s ≠ "" →
        lookupPath (PyVal.dict [("a", PyVal.str "other"),
          ("b", PyVal.dict [("c", PyVal.str "new")]), ("n", PyVal.int 7),
          ("f", PyVal.bool true)]) p = some (.str t) →
        pyStripS t ≠ "" →
        lookupPath (PyVal.dict m) p = some (.str s)) :=
  ⟨by simp +decide [compat, compatF, compatF1, lookupF],
   c1_merge_preserves_genuine _ _
    (by simp +decide [recND, recNDF, recNDL])
    (by simp +decide [recND, recNDF, recNDL])
    (by simp +decide [compat, compatF, compatF1, lookupF])⟩

/-! ## Claim C2: the overall risk escalation rule -/

theorem foldl_max_le {l : List Nat} {a n : Nat}
    (ha : a ≤ n) (hl : ∀ x ∈ l, x ≤ n) : l.foldl max a ≤ n := by
  induction l generalizing a with
  | nil => simpa using ha
  | cons x xs ih =>
    rw [List.foldl_cons]
    exact ih (max_le ha (hl x (List.mem_cons_self _ _)))
      (fun y hy => hl y (List.mem_cons_of_mem _ hy))

theorem le_foldl_max_init {l : List Nat} {a : Nat} : a ≤ l.foldl max a := by
  induction l generalizing a with
  | nil => simp
  | cons x xs ih =>
    rw [List.foldl_cons]
    exact le_trans (le_max_left a x) ih

theorem le_foldl_max_mem {l : List Nat} {a x : Nat} (h : x ∈ l) :
    x ≤ l.foldl max a := by
  induction l generalizing a with
  | nil => simp at h
  | cons y ys ih =>
    rw [List.foldl_cons]
    rcases List.mem_cons.mp h with he | ht
    · subst he
      exact le_trans (le_max_right a x) le_foldl_max_init
    · exact ih ht

/-- Counterexample to claim C2 as stated.  A run extracting two clauses,
assessed CRITICAL (score 10) and LOW (score 80): the average compliance is
45 < 50 and one clause is CRITICAL, yet the overall risk level is "HIGH",
not "CRITICAL" — because the code takes the `max` of the numeric severities
(the least severe clause, since lower numbers are worse) and only escalates
when that maximum is ≤ 25, i.e. when every clause is CRITICAL or HIGH. -/
theorem c2_counterexample :
    (∃ a ∈ (assessMsa
        [("warranties", PyVal.dict [("x", PyVal.str "a")]),
         ("commercial_terms", PyVal.dict [("y", PyVal.str "b")])]
        (fun n => if n = "service_level_agreements"
          then Outcome.parsed 10 "CRITICAL" [] [] []
          else Outcome.parsed 80 "LOW" [] [] [])).clauseAssessments,
      a.riskLevel = "CRITICAL") ∧
    ((((assessMsa
        [("warranties", PyVal.dict [("x", PyVal.str "a")]),
         ("commercial_terms", PyVal.dict [("y", PyVal.str "b")])]
        (fun n => if n = "service_level_agreements"
          then Outcome.parsed 10 "CRITICAL" [] [] []
          else Outcome.parsed 80 "LOW" [] [] [])).clauseAssessments.map
        (fun a => a.complianceScore)).sum /
      ((assessMsa
        [("warranties", PyVal.dict [("x", PyVal.str "a")]),
         ("commercial_terms", PyVal.dict [("y", PyVal.str "b")])]
        (fun n => if n = "service_level_agreements"
          then Outcome.parsed 10 "CRITICAL" [] [] []
          else Outcome.parsed 80 "LOW" [] [] [])).clauseAssessments.length : ℚ))
      < 50) ∧
    (assessMsa
        [("warranties", PyVal.dict [("x", PyVal.str "a")]),
         ("commercial_terms", PyVal.dict [("y", PyVal.str "b")])]
        (fun n => if n = "service_level_agreements"
          then Outcome.parsed 10 "CRITICAL" [] [] []
          else Outcome.parsed 80 "LOW" [] [] [])).overallRiskLevel = "HIGH" := by
  refine ⟨?_, ?_, ?_⟩ <;>
    (simp +decide [assessMsa, assessMsaAssessments, extractClauses, extractEntry,
       noneToEmpty, msaContent, clauseMapping, lookupF, assessClause,
       clausePromptNames, pyTruthy, pyEq, aggregateAssessments,
       calculateStructureCompleteness, pyMaxD, riskScore,
       missingClauseAssessment]) <;>
    norm_num

/-- Claim C2 (amended): the escalation in `assess_msa` triggers only when the
maximum of the numeric severities (CRITICAL=0, HIGH=25, MEDIUM=50, LOW=75;
the maximum is the LEAST severe clause, since lower numbers are worse) is at
most 25 — that is, when every assessed clause is CRITICAL or HIGH.  In that
case the overall level is CRITICAL exactly when every clause is CRITICAL,
and HIGH otherwise, overriding the score-based classification.  A run with
one CRITICAL clause next to a MEDIUM or LOW clause is not escalated and
takes the score-based level (`c2_counterexample`). -/
theorem c2_risk_escalation (l : List ClauseRiskAssessment) (hne : l ≠ [])
    (hall : ∀ a ∈ l, riskScore a.riskLevel ≤ 25) :
    ((∀ a ∈ l, riskScore a.riskLevel = 0) →
      (aggregateAssessments l).overallRiskLevel = "CRITICAL") ∧
    ((∃ a ∈ l, riskScore a.riskLevel ≠ 0) →
      (aggregateAssessments l).overallRiskLevel = "HIGH") := by
  cases l with
  | nil => exact absurd rfl hne
  | cons a0 rest =>
    have hmax_le : pyMaxD 50
        ((a0 :: rest).map (fun a => riskScore a.riskLevel)) ≤ 25 := by
      rw [List.map_cons, pyMaxD]
      refine foldl_max_le (hall a0 (List.mem_cons_self _ _)) ?_
      intro x hx
      obtain ⟨a1, ha1, he⟩ := List.mem_map.mp hx
      exact he ▸ hall a1 (List.mem_cons_of_mem _ ha1)
    constructor
    · intro h0
      have hmax0 : pyMaxD 50
          ((a0 :: rest).map (fun a => riskScore a.riskLevel)) = 0 := by
        apply Nat.le_zero.mp
        rw [List.map_cons, pyMaxD]
        refine foldl_max_le (Nat.le_zero.mpr (h0 a0 (List.mem_cons_self _ _))) ?_
        intro x hx
        obtain ⟨a1, ha1, he⟩ := List.mem_map.mp hx
        exact he ▸ Nat.le_zero.mpr (h0 a1 (List.mem_cons_of_mem _ ha1))
      simp only [aggregateAssessments, hmax0]
      norm_num
    · rintro ⟨a1, ha1, hne0⟩
      have hmax_ne : pyMaxD 50
          ((a0 :: rest).map (fun a => riskScore a.riskLevel)) ≠ 0 := by
        intro he0
        have hmem : riskScore a1.riskLevel ∈
            (a0 :: rest).map (fun a => riskScore a.riskLevel) :=
          List.mem_map_of_mem _ ha1
        rw [List.map_cons] at hmem he0
        rw [pyMaxD] at he0
        rcases List.mem_cons.mp hmem with he | ht
        · rw [← he] at he0
          have := le_foldl_max_init (l := List.map
            (fun a => riskScore a.riskLevel) rest) (a := riskScore a1.riskLevel)
          omega
        · have := le_foldl_max_mem (a := riskScore a0.riskLevel) ht
          omega
      simp only [aggregateAssessments, hmax_le, if_pos]
      rw [List.map_cons] at hmax_ne
      simp [hmax_ne]

/-- Witness for the amended C2: one CRITICAL and one HIGH clause escalate the
overall level to HIGH. -/
theorem c2_risk_escalation_witness :
    ([⟨"a", 10, "CRITICAL", [], [], []⟩,
      ⟨"b", 20, "HIGH", [], [], []⟩] : List ClauseRiskAssessment) ≠ [] ∧
    (aggregateAssessments
      [⟨"a", 10, "CRITICAL", [], [], []⟩,
       ⟨"b", 20, "HIGH", [], [], []⟩]).overallRiskLevel = "HIGH" :=
  ⟨by simp,
   (c2_risk_escalation _ (by simp)
      (by intro a ha
          simp [riskScore] at ha ⊢
          rcases ha with h | h <;> subst h <;> simp [riskScore])).2
    ⟨⟨"b", 20, "HIGH", [], [], []⟩, by simp, by simp [riskScore]⟩⟩

/-! ## Claim C3: present clauses never score exactly 0.0 -/

theorem pyEq_empty_dict_false_of_truthy {dat : PyVal} (h : pyTruthy dat = true) :
    pyEq dat (.dict []) = false := by
  cases dat with
  | none => simp [pyTruthy] at h
  | bool b => simp [pyEq]
  | int n => simp [pyEq]
  | str s => simp [pyEq]
  | list xs => simp [pyEq]
  | dict fs =>
    rw [pyTruthy] at h
    simp only [Bool.not_eq_true', List.isEmpty_eq_false] at h
    rw [pyEq]
    simp only [Bool.and_eq_true, decide_eq_true_eq, List.length_nil]
    simp [List.length_eq_zero, h]

/-- Counterexample to claim C3 as stated.  The clause value `0` is present,
not null and not the empty object — yet `_assess_clause` treats every falsy
value as missing (`if not clause_data or clause_data == {}`), returns the
deterministic missing assessment with compliance_score exactly 0.0, and the
collaborator response is never consulted. -/
theorem c3_counterexample :
    PyVal.int 0 ≠ PyVal.none ∧
    PyVal.int 0 ≠ PyVal.dict [] ∧
    (assessClause "payment_terms" (PyVal.int 0)
      (Outcome.parsed 70 "LOW" [] [] [])).complianceScore = 0 ∧
    lookupF "status"
      (assessClause "payment_terms" (PyVal.int 0)
        (Outcome.parsed 70 "LOW" [] [] [])).details = some (PyVal.str "missing") := by
  refine ⟨by simp, by simp, ?_, ?_⟩ <;>
    simp +decide [assessClause, clausePromptNames, clauseMapping, pyTruthy,
      pyEq, missingClauseAssessment, lookupF]

/-- Claim C3 (amended): for each of the five tracked clause categories, a
clause whose data is truthy (non-null, not the empty object, and not an
empty string, empty list, zero or false — Python truthiness, which is what
the code tests) never yields compliance_score exactly 0.0, whatever the
collaborator responds: a parsed score of 0.0 is floored to 5.0 and a
collaborator failure yields the neutral 50.0.  For falsy data the code takes
the missing path and returns exactly 0.0 (`c3_counterexample`). -/
theorem c3_present_clause_never_zero (clauseName : String) (dat : PyVal)
    (out : Outcome) (hname : clauseName ∈ clausePromptNames)
    (hdat : pyTruthy dat = true) :
    (assessClause clauseName dat out).complianceScore ≠ 0 ∧
    (∀ lvl factors recs det, out = Outcome.parsed 0 lvl factors recs det →
      (assessClause clauseName dat out).complianceScore = 5) ∧
    (∀ msg, out = Outcome.failure msg →
      (assessClause clauseName dat out).complianceScore = 50) := by
  have hmem : clausePromptNames.contains clauseName = true := by
    simpa using hname
  have hne : pyEq dat (.dict []) = false := pyEq_empty_dict_false_of_truthy hdat
  unfold assessClause
  simp only [hmem, Bool.not_true, Bool.false_eq_true, if_false, hdat, hne,
    Bool.or_self, Bool.not_false]
  cases out with
  | failure msg =>
    refine ⟨by norm_num, ?_, ?_⟩
    · intro lvl factors recs det h
      exact Outcome.noConfusion h
    · intro msg2 h
      rfl
  | parsed score lvl factors recs det =>
    simp only [hdat, hne, Bool.not_false, Bool.and_true, Bool.true_and]
    refine ⟨?_, ?_, ?_⟩
    · by_cases h0 : score = 0
      · simp [h0]
      · simp [h0]
    · intro lvl2 factors2 recs2 det2 h
      injection h with h1 h2 h3 h4 h5
      subst h1
      simp
    · intro msg h
      exact Outcome.noConfusion h

/-- Witness for the amended C3: a present payment-terms clause whose parsed
score is 0.0 is floored to 5.0. -/
theorem c3_present_clause_never_zero_witness :
    "payment_terms" ∈ clausePromptNames ∧
    pyTruthy (PyVal.dict [("a", PyVal.str "x")]) = true ∧
    (assessClause "payment_terms" (PyVal.dict [("a", PyVal.str "x")])
      (Outcome.parsed 0 "LOW" [] [] [])).complianceScore = 5 :=
  ⟨by simp +decide [clausePromptNames, clauseMapping],
   by simp [pyTruthy],
   (c3_present_clause_never_zero "payment_terms"
      (PyVal.dict [("a", PyVal.str "x")]) (Outcome.parsed 0 "LOW" [] [] [])
      (by simp +decide [clausePromptNames, clauseMapping])
      (by simp [pyTruthy])).2.1 "LOW" [] [] [] rfl⟩

/-! ## Claims C4 and C10: missing versus absent clauses -/

theorem assessClause_name (clauseName : String) (dat : PyVal) (out : Outcome) :
    (assessClause clauseName dat out).clauseName = clauseName := by
  unfold assessClause
  split_ifs <;> (try rfl) <;> (cases out <;> rfl)

theorem msaContent_plain {fs : List (String × PyVal)}
    (h : lookupF "MASTER_SERVICE_AGREEMENT" fs = Option.none) :
    msaContent fs = PyVal.dict fs := by
  rw [msaContent, h]

theorem aggregate_clause_assessments (l : List ClauseRiskAssessment) :
    (aggregateAssessments l).clauseAssessments = l := rfl

/-- `filter` after `map` after `filterMap` commutes down to a filter on the
source list when the predicate factors through it. -/
theorem filter_map_filterMap {α β γ : Type} (f : α → Option β) (h : β → γ)
    (p : γ → Bool) (q : α → Bool) (M : List α)
    (hc : ∀ x b, f x = some b → p (h b) = q x) :
    ((M.filterMap f).map h).filter p = ((M.filter q).filterMap f).map h := by
  induction M with
  | nil => simp
  | cons x M2 ih =>
    rw [List.filterMap_cons, List.filter_cons]
    cases hfx : f x with
    | none =>
      by_cases hq : q x
      · simp only [hq, if_true, List.filterMap_cons, hfx]
        exact ih
      · simp only [hq, Bool.false_eq_true, if_false]
        exact ih
    | some b =>
      have hpq := hc x b hfx
      by_cases hq : q x
      · simp only [hq, if_true, List.filterMap_cons, hfx, List.map_cons,
          List.filter_cons, hpq]
        rw [ih]
      · simp only [hq, Bool.false_eq_true, if_false, List.map_cons,
          List.filter_cons, hpq]
        rw [ih]

theorem filterMap_length_le_of_none {α β : Type} (f : α → Option β) :
    ∀ (M : List α) (x : α), x ∈ M → f x = Option.none →
      (M.filterMap f).length ≤ M.length - 1 := by
  intro M
  induction M with
  | nil => intro x h; simp at h
  | cons y M2 ih =>
    intro x hx hfx
    rcases List.mem_cons.mp hx with he | ht
    · subst he
      rw [List.filterMap_cons, hfx]
      simp only [List.length_cons, Nat.add_sub_cancel]
      exact List.length_filterMap_le f M2
    · rw [List.filterMap_cons]
      cases hfy : f y with
      | none =>
        have := ih x ht hfx
        simp only [List.length_cons, Nat.add_sub_cancel]
        calc (M2.filterMap f).length ≤ M2.length - 1 := this
          _ ≤ M2.length := Nat.sub_le _ _
      | some b =>
        have h2 := ih x ht hfx
        have h3 : M2 ≠ [] := by
          intro he
          subst he
          simp at ht
        have h4 : 1 ≤ M2.length := by
          cases M2 with
          | nil => exact absurd rfl h3
          | cons _ _ => simp
        simp only [List.length_cons, Nat.add_sub_cancel]
        omega

theorem filter_fst_eq_of_nodup {α β : Type} [DecidableEq α] :
    ∀ {M : List (α × β)} {c : α} {p : β},
      (M.map Prod.fst).Nodup → (c, p) ∈ M →
      M.filter (fun x => decide (x.1 = c)) = [(c, p)] := by
  intro M
  induction M with
  | nil => intro c p _ hm; simp at hm
  | cons ab rest ih =>
    intro c p hnd hm
    obtain ⟨a, b⟩ := ab
    rw [List.map_cons, List.nodup_cons] at hnd
    rcases List.mem_cons.mp hm with he | ht
    · injection he with h1 h2
      subst h1
      subst h2
      rw [List.filter_cons]
      have hrest : List.filter (fun x => decide (x.1 = c)) rest = [] := by
        rw [List.filter_eq_nil]
        intro x hx
        simp only [decide_eq_true_eq]
        intro hcontra
        apply hnd.1
        have h4 := List.mem_map_of_mem Prod.fst hx
        rw [hcontra] at h4
        exact h4
      simp [hrest]
    · have hne : a ≠ c := by
        intro he2
        apply hnd.1
        have h3 := List.mem_map_of_mem Prod.fst ht
        rw [← he2] at h3
        exact h3
      rw [List.filter_cons]
      simp only [hne, decide_eq_true_eq, if_false]
      exact ih hnd.2 ht

/-- After `_extract_clauses` replaces a null field by `{}`, the stored value
is still falsy whenever the original was. -/
theorem extract_entry_falsy {v : PyVal} (hv : pyTruthy v = false) :
    pyTruthy (noneToEmpty v) = false := by
  cases v <;> first | exact hv | simp [noneToEmpty, pyTruthy]

/-- A falsy clause value takes the deterministic missing branch of
`_assess_clause`, for every collaborator outcome. -/
theorem assessClause_missing_of_falsy {cat : String} {v : PyVal} (out : Outcome)
    (hmem : clausePromptNames.contains cat = true) (hv : pyTruthy v = false) :
    assessClause cat v out = missingClauseAssessment cat := by
  have hmem2 : cat ∈ clausePromptNames := by simpa using hmem
  unfold assessClause
  simp [hmem2, hv]

/-- Claim C4: for every clause category of the fixed mapping whose mapped
field is present in the record but null or otherwise falsy, the assessment
run contains exactly one assessment for that category, it is the
deterministic missing assessment — compliance_score exactly 0.0, risk_level
HIGH, the standard risk_factor/recommendation pair, details.status =
"missing" — and it is the same for every collaborator response function
(no LLM call is made for that clause). -/
theorem c4_missing_clause_deterministic (fs : List (String × PyVal))
    (v : PyVal) (cat path : String) (resp : String → Outcome)
    (hmap : (cat, path) ∈ clauseMapping)
    (hwrap : lookupF "MASTER_SERVICE_AGREEMENT" fs = Option.none)
    (hlk : lookupF path fs = some v) (hv : pyTruthy v = false) :
    (assessMsa fs resp).clauseAssessments.filter
      (fun a => decide (a.clauseName = cat)) = [missingClauseAssessment cat] := by
  have hcontent := msaContent_plain hwrap
  have hEx : extractClauses fs = clauseMapping.filterMap (extractEntry fs) := by
    unfold extractClauses
    rw [hcontent]
  rw [assessMsa, aggregate_clause_assessments, assessMsaAssessments, hEx]
  rw [filter_map_filterMap _ _ _ (fun ckcp => decide (ckcp.1 = cat))
    clauseMapping ?_]
  · have hnd : (clauseMapping.map Prod.fst).Nodup := by
      simp +decide [clauseMapping]
    rw [filter_fst_eq_of_nodup hnd hmap]
    rw [List.filterMap_cons]
    have hf : extractEntry fs (cat, path) = some (cat, noneToEmpty v) := by
      rw [extractEntry, hlk]
      rfl
    rw [hf]
    rw [List.filterMap_nil, List.map_cons, List.map_nil]
    have hmem : clausePromptNames.contains cat = true := by
      have h5 : cat ∈ clauseMapping.map Prod.fst := List.mem_map_of_mem Prod.fst hmap
      rw [clausePromptNames]
      simpa using h5
    rw [assessClause_missing_of_falsy _ hmem (extract_entry_falsy hv)]
  · intro x b hfb
    have hb1 : b.1 = x.1 := by
      rw [extractEntry] at hfb
      cases hlx : lookupF x.2 fs with
      | none => rw [hlx] at hfb; exact Option.noConfusion hfb
      | some w =>
        rw [hlx] at hfb
        simp at hfb
        rw [← hfb]
    rw [assessClause_name, hb1]

/-- Witness for C4: a record whose `termination` field is present but null
yields the missing assessment for `termination_breach`, for an arbitrary
collaborator response. -/
theorem c4_missing_clause_deterministic_witness :
    ("termination_breach", "termination") ∈ clauseMapping ∧
    (assessMsa [("termination", PyVal.none)]
        (fun _ => Outcome.parsed 99 "LOW" [] [] [])).clauseAssessments.filter
      (fun a => decide (a.clauseName = "termination_breach")) =
      [missingClauseAssessment "termination_breach"] :=
  ⟨by simp [clauseMapping],
   c4_missing_clause_deterministic [("termination", PyVal.none)] PyVal.none
    "termination_breach" "termination" (fun _ => Outcome.parsed 99 "LOW" [] [] [])
    (by simp [clauseMapping])
    (by simp +decide [lookupF])
    (by simp +decide [lookupF])
    (by simp [pyTruthy])⟩

/-- Claim C10: a clause category whose mapped field key is entirely absent
from the input record (as opposed to present-but-null) produces no
ClauseAssessment at all, so it is not counted in missing_clauses_count
(which counts only produced assessments with score 0.0 and details.status =
"missing"); nevertheless structure_completeness still decreases, because the
absent category is not counted as present out of the fixed total of 5
expected categories: completeness equals
`(produced - missing) / 5 * 100` and is therefore at most 80. -/
theorem c10_absent_category (fs : List (String × PyVal)) (cat path : String)
    (resp : String → Outcome)
    (hmap : (cat, path) ∈ clauseMapping)
    (hwrap : lookupF "MASTER_SERVICE_AGREEMENT" fs = Option.none)
    (habs : lookupF path fs = Option.none) :
    (∀ a ∈ (assessMsa fs resp).clauseAssessments, a.clauseName ≠ cat) ∧
    (assessMsa fs resp).clauseAssessments.length ≤ 4 ∧
    (assessMsa fs resp).structureCompleteness =
      ((((assessMsa fs resp).clauseAssessments.length -
        (assessMsa fs resp).missingClausesCount : ℕ) : ℚ) / 5) * 100 ∧
    (assessMsa fs resp).structureCompleteness ≤ 80 := by
  have hcontent := msaContent_plain hwrap
  have hEx : extractClauses fs = clauseMapping.filterMap (extractEntry fs) := by
    unfold extractClauses
    rw [hcontent]
  have hnone : extractEntry fs (cat, path) = Option.none := by
    rw [extractEntry, habs]
    rfl
  have hname : ∀ x b, extractEntry fs x = some b →
      decide ((assessClause b.1 b.2 (resp b.1)).clauseName = cat) =
        decide (x.1 = cat) := by
    intro x b hfb
    have hb1 : b.1 = x.1 := by
      rw [extractEntry] at hfb
      cases hlx : lookupF x.2 fs with
      | none => rw [hlx] at hfb; exact Option.noConfusion hfb
      | some w =>
        rw [hlx] at hfb
        simp at hfb
        rw [← hfb]
    rw [assessClause_name, hb1]
  have hA : (assessMsa fs resp).clauseAssessments.filter
      (fun a => decide (a.clauseName = cat)) = [] := by
    rw [assessMsa, aggregate_clause_assessments, assessMsaAssessments, hEx]
    rw [filter_map_filterMap _ _ _ (fun ckcp => decide (ckcp.1 = cat))
      clauseMapping hname]
    have hnd : (clauseMapping.map Prod.fst).Nodup := by
      simp +decide [clauseMapping]
    rw [filter_fst_eq_of_nodup hnd hmap]
    rw [List.filterMap_cons, hnone, List.filterMap_nil, List.map_nil]
  have hlen : (assessMsa fs resp).clauseAssessments.length ≤ 4 := by
    rw [assessMsa, aggregate_clause_assessments, assessMsaAssessments, hEx]
    rw [List.length_map]
    have h5 : clauseMapping.length = 5 := rfl
    have := filterMap_length_le_of_none (extractEntry fs) clauseMapping
      (cat, path) hmap hnone
    omega
  refine ⟨?_, hlen, ?_, ?_⟩
  · intro a ha he
    have : a ∈ (assessMsa fs resp).clauseAssessments.filter
        (fun a => decide (a.clauseName = cat)) := by
      rw [List.mem_filter]
      exact ⟨ha, by simp [he]⟩
    rw [hA] at this
    simp at this
  · rw [assessMsa, aggregateAssessments]
    simp only [calculateStructureCompleteness, aggregate_clause_assessments]
    norm_num [clausePromptNames, clauseMapping]
  · have hmle : (assessMsa fs resp).missingClausesCount ≤
        (assessMsa fs resp).clauseAssessments.length := by
      rw [assessMsa, aggregateAssessments]
      simp only [calculateStructureCompleteness, aggregate_clause_assessments]
      exact List.countP_le_length _
    have hc : (assessMsa fs resp).structureCompleteness =
        ((((assessMsa fs resp).clauseAssessments.length -
          (assessMsa fs resp).missingClausesCount : ℕ) : ℚ) / 5) * 100 := by
      rw [assessMsa, aggregateAssessments]
      simp only [calculateStructureCompleteness, aggregate_clause_assessments]
      norm_num [clausePromptNames, clauseMapping]
    rw [hc]
    have hple : ((assessMsa fs resp).clauseAssessments.length -
        (assessMsa fs resp).missingClausesCount : ℕ) ≤ 4 := by omega
    have hpq : ((((assessMsa fs resp).clauseAssessments.length -
        (assessMsa fs resp).missingClausesCount : ℕ)) : ℚ) ≤ 4 := by
      exact_mod_cast hple
    nlinarith [hpq]

/-- Witness for C10: a record carrying only the `warranties` field; the
`insurance` key is absent, so `liability_insurance` is never assessed and
completeness is 20%. -/
theorem c10_absent_category_witness :
    ("liability_insurance", "insurance") ∈ clauseMapping ∧
    (∀ a ∈ (assessMsa [("warranties", PyVal.dict [("x", PyVal.str "a")])]
        (fun _ => Outcome.parsed 90 "LOW" [] [] [])).clauseAssessments,
      a.clauseName ≠ "liability_insurance") ∧
    (assessMsa [("warranties", PyVal.dict [("x", PyVal.str "a")])]
        (fun _ => Outcome.parsed 90 "LOW" [] [] [])).structureCompleteness ≤ 80 := by
  have h := c10_absent_category
    [("warranties", PyVal.dict [("x", PyVal.str "a")])]
    "liability_insurance" "insurance"
    (fun _ => Outcome.parsed 90 "LOW" [] [] [])
    (by simp [clauseMapping])
    (by simp +decide [lookupF])
    (by simp +decide [lookupF])
  exact ⟨by simp [clauseMapping], h.1, h.2.2.2⟩

/-- Any piece emitted by the force-split safety loop has length at most
`maxChunkSize`, provided the loop is given enough fuel and the bound is
positive. -/
theorem forceSplitLoop_bound (M : Nat) (hM : 1 ≤ M) :
    ∀ fuel chunk, chunk.length < fuel →
      ∀ x ∈ forceSplitLoop M fuel chunk, x.length ≤ M := by
  intro fuel
  induction fuel with
  | zero => intro chunk h; omega
  | succ fuel ih =>
    intro chunk hlen x hx
    rw [forceSplitLoop] at hx
    by_cases hover : M < chunk.length
    · rw [if_pos hover] at hx
      rcases List.mem_cons.mp hx with hx1 | hx2
      · subst hx1
        have h1 := pyStrip_length_le (chunk.take M)
        have h2 : (chunk.take M).length = M := by
          rw [List.length_take]; omega
        omega
      · refine ih (pyStrip (chunk.drop M)) ?_ x hx2
        have h1 := pyStrip_length_le (chunk.drop M)
        rw [List.length_drop] at h1
        omega
    · rw [if_neg hover] at hx
      by_cases he : chunk.isEmpty = true
      · simp [he] at hx
      · simp [he] at hx
        subst hx
        have h1 := pyStrip_length_le chunk
        omega

/-- Every chunk produced by the shared chunking core respects the size
bound, for a positive maximum: the single-chunk fast path is within bound
by its guard, and every other chunk passes through the final force-split
pass. -/
theorem chunkCore_size_bound (pats : List SecPat) (text : List Char)
    (M : Nat) (hM : 1 ≤ M) :
    ∀ ch ∈ chunkCore pats text M, ch.length ≤ M := by
  intro ch hch
  rw [chunkCore] at hch
  by_cases ht : text.length ≤ M
  · rw [if_pos ht] at hch
    simp at hch
    subst hch
    exact ht
  · rw [if_neg ht] at hch
    simp only [List.mem_filter, List.mem_flatMap] at hch
    obtain ⟨⟨c, hc, hcm⟩, -⟩ := hch
    by_cases hover : M < c.length
    · rw [if_pos hover] at hcm
      exact forceSplitLoop_bound M hM (c.length + 1) c (Nat.lt_succ_self _) ch hcm
    · rw [if_neg hover] at hcm
      simp at hcm
      subst hcm
      omega

/-- Claim C5: for every text and every positive `max_chunk_size`, every
chunk returned by `_chunk_document` and by `chunk_text_by_sections` has
length at most `max_chunk_size`: the hard size invariant survives the
boundary-split pass, the paragraph/line re-split loop, and the final
force-split pass. -/
theorem c5_chunk_size_bound (text : List Char) (M : Nat) (hM : 1 ≤ M) :
    (∀ ch ∈ chunkDocument text M, ch.length ≤ M) ∧
    (∀ ch ∈ chunkTextBySections text M, ch.length ≤ M) :=
  ⟨fun ch hch => chunkCore_size_bound _ text M hM ch hch,
   fun ch hch => chunkCore_size_bound _ text M hM ch hch⟩

/-- Witness for C5 at text `"abcdef"` and bound 3 (both chunkers). -/
theorem c5_chunk_size_bound_witness :
    (1 ≤ 3 ∧
      (chunkDocument ['a', 'b', 'c', 'd', 'e', 'f'] 3).all
        (fun ch => decide (ch.length ≤ 3)) = true) ∧
    (chunkTextBySections ['a', 'b', 'c', 'd', 'e', 'f'] 3).all
      (fun ch => decide (ch.length ≤ 3)) = true := by
  have h := c5_chunk_size_bound ['a', 'b', 'c', 'd', 'e', 'f'] 3 (by decide)
  refine ⟨⟨by decide, ?_⟩, ?_⟩
  · rw [List.all_eq_true]
    intro ch hch
    exact decide_eq_true (h.1 ch hch)
  · rw [List.all_eq_true]
    intro ch hch
    exact decide_eq_true (h.2 ch hch)

/-- Counterexample to Claim C9 as stated: on the empty text both chunkers
return `[""]`, whose single element is the empty string — the fast path
`if len(text) <= max_chunk_size: return [text]` bypasses the emptiness
filter. -/
theorem c9_counterexample :
    ([] : List Char) ∈ chunkDocument [] 10 ∧
    ([] : List Char) ∈ chunkTextBySections [] 10 := by
  constructor <;> simp [chunkDocument, chunkTextBySections, chunkCore]

/-- Shared non-emptiness argument for the amended C9: for non-empty input
text every chunk of the shared core is non-empty — the fast path returns
the text itself, and every other chunk survives the final
`if c.strip()`-style emptiness filter. -/
theorem chunkCore_nonempty (pats : List SecPat) (text : List Char) (M : Nat)
    (htext : text ≠ []) :
    ∀ ch ∈ chunkCore pats text M, ch ≠ [] := by
  intro ch hch
  rw [chunkCore] at hch
  by_cases ht : text.length ≤ M
  · rw [if_pos ht] at hch
    simp at hch
    subst hch
    exact htext
  · rw [if_neg ht] at hch
    simp only [List.mem_filter] at hch
    obtain ⟨-, hne⟩ := hch
    simpa [List.isEmpty_iff] using hne

/-- Amended Claim C9: for every NON-EMPTY text and every `max_chunk_size`,
every element returned by `_chunk_document` and by
`chunk_text_by_sections` is a non-empty string.  (The original claim fails
only on the empty text, where the fast path returns `[""]`.) -/
theorem c9_chunks_nonempty (text : List Char) (M : Nat) (htext : text ≠ []) :
    (∀ ch ∈ chunkDocument text M, ch ≠ []) ∧
    (∀ ch ∈ chunkTextBySections text M, ch ≠ []) :=
  ⟨fun ch hch => chunkCore_nonempty _ text M htext ch hch,
   fun ch hch => chunkCore_nonempty _ text M htext ch hch⟩

/-- Witness for the amended C9 at text `"abcdef"` and bound 3. -/
theorem c9_chunks_nonempty_witness :
    ((['a', 'b', 'c', 'd', 'e', 'f'] : List Char) ≠ [] ∧
      (chunkDocument ['a', 'b', 'c', 'd', 'e', 'f'] 3).all
        (fun ch => !ch.isEmpty) = true) ∧
    (chunkTextBySections ['a', 'b', 'c', 'd', 'e', 'f'] 3).all
      (fun ch => !ch.isEmpty) = true := by
  have h := c9_chunks_nonempty ['a', 'b', 'c', 'd', 'e', 'f'] 3 (by decide)
  refine ⟨⟨by decide, ?_⟩, ?_⟩
  · rw [List.all_eq_true]
    intro ch hch
    simpa [List.isEmpty_iff] using h.1 ch hch
  · rw [List.all_eq_true]
    intro ch hch
    simpa [List.isEmpty_iff] using h.2 ch hch

/-- Claim C8: `score_by_keywords` returns 1.0 when both keyword sets are
empty; 0.0 with empty `matched` and `missing` equal to the non-empty set
when exactly one is empty; otherwise the Jaccard index
`|A ∩ B| / |A ∪ B|` of the two keyword sets. -/
theorem c8_jaccard (a b : String) :
    (extractKeywords 4 a = ∅ → extractKeywords 4 b = ∅ →
      scoreByKeywords a b = (1, ∅, ∅)) ∧
    (extractKeywords 4 a = ∅ → extractKeywords 4 b ≠ ∅ →
      scoreByKeywords a b = (0, ∅, extractKeywords 4 b)) ∧
    (extractKeywords 4 a ≠ ∅ → extractKeywords 4 b = ∅ →
      scoreByKeywords a b = (0, ∅, extractKeywords 4 a)) ∧
    (extractKeywords 4 a ≠ ∅ → extractKeywords 4 b ≠ ∅ →
      (scoreByKeywords a b).1 =
        ((extractKeywords 4 a ∩ extractKeywords 4 b).card : ℚ) /
        ((extractKeywords 4 a ∪ extractKeywords 4 b).card : ℚ)) := by
  refine ⟨?_, ?_, ?_, ?_⟩ <;> intro h1 h2 <;> simp only [scoreByKeywords]
  · simp [h1, h2]
  · simp [h1, h2]
  · simp [h1, h2]
  · simp [h1, h2, Finset.union_eq_empty]

/-- Witness for C8: the empty-strings case scores 1.0, and for the pair
`("cats", "cats dogs")` both keyword sets are non-empty and the score is
the Jaccard ratio of the concrete sets. -/
theorem c8_jaccard_witness :
    scoreByKeywords "" "" = (1, ∅, ∅) ∧
    (extractKeywords 4 "cats" ≠ ∅ ∧ extractKeywords 4 "cats dogs" ≠ ∅ ∧
      (scoreByKeywords "cats" "cats dogs").1 =
        ((extractKeywords 4 "cats" ∩ extractKeywords 4 "cats dogs").card : ℚ) /
        ((extractKeywords 4 "cats" ∪ extractKeywords 4 "cats dogs").card : ℚ)) := by
  have he : extractKeywords 4 "" = ∅ := by
    simp +decide [extractKeywords, pyWordsAux]
  have h1 : extractKeywords 4 "cats" ≠ ∅ := by
    simp +decide [extractKeywords, pyWordsAux]
  have h2 : extractKeywords 4 "cats dogs" ≠ ∅ := by
    simp +decide [extractKeywords, pyWordsAux, stopwords]
  exact ⟨(c8_jaccard "" "").1 he he,
    h1, h2, (c8_jaccard "cats" "cats dogs").2.2.2 h1 h2⟩

/-- On a list without duplicates, `list.index` recovers the position of any
element found by indexed access. -/
theorem pyIndex_of_nodup :
    ∀ (l : List QAPair), l.Nodup → ∀ i p, l.get? i = some p → pyIndex p l = i := by
  intro l
  induction l with
  | nil => intro _ i p h; simp at h
  | cons y ys ih =>
    intro hnd i p h
    rw [List.nodup_cons] at hnd
    cases i with
    | zero =>
      rw [List.get?] at h
      have hyp : y = p := by injection h
      rw [pyIndex, if_pos hyp]
    | succ i =>
      rw [List.get?] at h
      have hp : p ∈ ys := List.get?_mem h
      have hne : ¬(y = p) := fun he => hnd.1 (he ▸ hp)
      rw [pyIndex, if_neg hne, ih hnd.2 i p h]

/-- The inner candidate scan either leaves the running best untouched or
returns some unmatched enumerated candidate together with its exact
question similarity. -/
theorem bestMatchAux_spec (genP : QAPair) (matched : List Nat) :
    ∀ (l : List (Nat × QAPair)) (best0 : Option QAPair) (sim0 : ℚ),
      bestMatchAux genP matched l best0 sim0 = (best0, sim0) ∨
      ∃ i p, (i, p) ∈ l ∧ i ∉ matched ∧
        bestMatchAux genP matched l best0 sim0 =
          (some p, questionSimilarity genP.question p.question) := by
  intro l
  induction l with
  | nil => intro best0 sim0; left; rw [bestMatchAux]
  | cons ip rest ih =>
    intro best0 sim0
    obtain ⟨i, p⟩ := ip
    simp only [bestMatchAux]
    by_cases hm : i ∈ matched
    · rw [if_pos hm]
      rcases ih best0 sim0 with h | ⟨j, q, hjq, hjm, heq⟩
      · left; exact h
      · right; exact ⟨j, q, List.mem_cons_of_mem _ hjq, hjm, heq⟩
    · rw [if_neg hm]
      by_cases hs : sim0 < questionSimilarity genP.question p.question
      · rw [if_pos hs]
        rcases ih (some p) (questionSimilarity genP.question p.question) with
          h | ⟨j, q, hjq, hjm, heq⟩
        · right; exact ⟨i, p, List.mem_cons_self _ _, hm, h⟩
        · right; exact ⟨j, q, List.mem_cons_of_mem _ hjq, hjm, heq⟩
      · rw [if_neg hs]
        rcases ih best0 sim0 with h | ⟨j, q, hjq, hjm, heq⟩
        · left; exact h
        · right; exact ⟨j, q, List.mem_cons_of_mem _ hjq, hjm, heq⟩

/-- One outer-loop step preserves the matching invariant: the recorded index
list is the image of the recorded ground-truth components under
`list.index`, every accepted pair passed the 0.3 threshold with its exact
similarity, and the index list has no duplicates. -/
theorem matchStep_inv (gtPairs : List QAPair) (hnd : gtPairs.Nodup)
    (st : List (QAPair × QAPair) × List Nat) (genP : QAPair)
    (h1 : st.2 = st.1.map (fun pr => pyIndex pr.1 gtPairs))
    (h2 : ∀ pr ∈ st.1, 3 / 10 < questionSimilarity pr.2.question pr.1.question)
    (h3 : st.2.Nodup) :
    ((matchStep gtPairs st genP).2 =
        (matchStep gtPairs st genP).1.map (fun pr => pyIndex pr.1 gtPairs)) ∧
    (∀ pr ∈ (matchStep gtPairs st genP).1,
        3 / 10 < questionSimilarity pr.2.question pr.1.question) ∧
    (matchStep gtPairs st genP).2.Nodup := by
  rcases hbm : bestMatchAux genP st.2 gtPairs.enum Option.none 0 with ⟨best, bestSim⟩
  rw [matchStep, hbm]
  cases best with
  | none => exact ⟨h1, h2, h3⟩
  | some b =>
    dsimp only
    by_cases hacc : 3 / 10 < bestSim
    · rw [if_pos hacc]
      rcases bestMatchAux_spec genP st.2 gtPairs.enum Option.none 0 with
        hL | ⟨i, p, hip, him, heq⟩
      · rw [hbm] at hL
        exact absurd hL (by simp)
      · rw [hbm] at heq
        have hbp : b = p := by
          have := congrArg Prod.fst heq
          simpa using this
        have hsim : bestSim = questionSimilarity genP.question b.question := by
          have := congrArg Prod.snd heq
          rw [hbp]; simpa using this
        subst hbp
        have hget : gtPairs.get? i = some b := List.mem_enum_iff_get?.mp hip
        have hidx : pyIndex b gtPairs = i := pyIndex_of_nodup gtPairs hnd i b hget
        refine ⟨?_, ?_, ?_⟩
        · rw [List.map_append, ← h1]
          simp [hidx]
        · intro pr hpr
          rcases List.mem_append.mp hpr with hl | hr
          · exact h2 pr hl
          · have hpr2 : pr = (b, genP) := by simpa using hr
            subst hpr2
            rw [hsim] at hacc
            exact hacc
        · rw [hidx, List.nodup_append]
          exact ⟨h3, List.nodup_singleton i, by simpa using him⟩
    · rw [if_neg hacc]
      exact ⟨h1, h2, h3⟩

/-- The matching invariant holds along the whole outer fold. -/
theorem matchFold_inv (gtPairs : List QAPair) (hnd : gtPairs.Nodup) :
    ∀ (gens : List QAPair) (st : List (QAPair × QAPair) × List Nat),
      st.2 = st.1.map (fun pr => pyIndex pr.1 gtPairs) →
      (∀ pr ∈ st.1, 3 / 10 < questionSimilarity pr.2.question pr.1.question) →
      st.2.Nodup →
      ((gens.foldl (matchStep gtPairs) st).2 =
          (gens.foldl (matchStep gtPairs) st).1.map
            (fun pr => pyIndex pr.1 gtPairs)) ∧
      (∀ pr ∈ (gens.foldl (matchStep gtPairs) st).1,
          3 / 10 < questionSimilarity pr.2.question pr.1.question) ∧
      (gens.foldl (matchStep gtPairs) st).2.Nodup := by
  intro gens
  induction gens with
  | nil => intro st h1 h2 h3; exact ⟨h1, h2, h3⟩
  | cons g gens ih =>
    intro st h1 h2 h3
    rw [List.foldl_cons]
    obtain ⟨k1, k2, k3⟩ := matchStep_inv gtPairs hnd st g h1 h2 h3
    exact ih (matchStep gtPairs st g) k1 k2 k3

/-- Counterexample to Claim C6 as stated: with the duplicated ground-truth
pair `P = ("aaaa", "x")` listed twice and three identical generated pairs,
all three generated pairs are accepted and all of them match `P` — the
removal via `matched_ground_truth` records `ground_truth_pairs.index(best)`,
the FIRST value-equal position, so the duplicate at position 1 is scanned
as unmatched again and again while position 0 is recorded three times. -/
theorem c6_counterexample :
    (evaluateDocumentMatching
        [⟨"aaaa", "x", Option.none⟩, ⟨"aaaa", "x", Option.none⟩]
        [⟨"aaaa", "x", Option.none⟩, ⟨"aaaa", "x", Option.none⟩,
          ⟨"aaaa", "x", Option.none⟩]).map Prod.fst =
      [⟨"aaaa", "x", Option.none⟩, ⟨"aaaa", "x", Option.none⟩,
        ⟨"aaaa", "x", Option.none⟩] := by
  simp +decide [evaluateDocumentMatching, matchStep, bestMatchAux,
    questionSimilarity, extractKeywords, pyWordsAux, isSubList, pyIndex,
    stopwords, (show (3 : ℚ) / 10 < 1 by norm_num)]

/-- Amended Claim C6: when the ground-truth pairs are pairwise DISTINCT,
`list.index` recovers the true position, so no ground-truth pair is matched
to more than one generated pair, and every accepted match passed the strict
0.3 question-similarity threshold.  (The original claim fails when the
ground-truth list contains duplicate pairs.) -/
theorem c6_no_double_match (gtPairs genPairs : List QAPair)
    (hnd : gtPairs.Nodup) :
    ((evaluateDocumentMatching gtPairs genPairs).map Prod.fst).Nodup ∧
    ∀ pr ∈ evaluateDocumentMatching gtPairs genPairs,
      3 / 10 < questionSimilarity pr.2.question pr.1.question := by
  obtain ⟨h1, h2, h3⟩ :=
    matchFold_inv gtPairs hnd genPairs ([], []) rfl (by simp) List.nodup_nil
  rw [evaluateDocumentMatching]
  refine ⟨?_, h2⟩
  rw [h1] at h3
  have h4 : (((genPairs.foldl (matchStep gtPairs) ([], [])).1.map
      Prod.fst).map (fun q => pyIndex q gtPairs)).Nodup := by
    rw [List.map_map]
    exact h3
  exact h4.of_map _

/-- Witness for the amended C6: two distinct ground-truth pairs and one
generated pair. -/
theorem c6_no_double_match_witness :
    ([⟨"cats", "x", Option.none⟩, ⟨"dogs", "y", Option.none⟩] :
        List QAPair).Nodup ∧
    ((evaluateDocumentMatching
        [⟨"cats", "x", Option.none⟩, ⟨"dogs", "y", Option.none⟩]
        [⟨"cats", "z", Option.none⟩]).map Prod.fst).Nodup ∧
    (evaluateDocumentMatching
        [⟨"cats", "x", Option.none⟩, ⟨"dogs", "y", Option.none⟩]
        [⟨"cats", "z", Option.none⟩]).all
      (fun pr =>
        decide (3 / 10 < questionSimilarity pr.2.question pr.1.question)) := by
  have h := c6_no_double_match
    [⟨"cats", "x", Option.none⟩, ⟨"dogs", "y", Option.none⟩]
    [⟨"cats", "z", Option.none⟩] (by decide)
  refine ⟨by decide, h.1, ?_⟩
  rw [List.all_eq_true]
  intro pr hpr
  exact decide_eq_true (h.2 pr hpr)
